import Mathlib

/-!
Verification of the NodaLogic node/ledger engine
(`NodaLogicDesigner/nodes.py`) against its specification.

Python strings are embedded as `List Char` (`Chars`) in the UID codec,
where splitting on separators has to be reasoned about, and as `String`
elsewhere.  Python dicts holding node payloads are embedded as ordered
association lists, mirroring Python's insertion-order semantics:
updating an existing key rewrites the value in place, a new key is
appended at the end.
-/

namespace NodaLogic

/-! ## UID codec (`normalize_own_uid`, `parse_uid_any`, `extract_internal_id`) -/

abbrev Chars := List Char

/-- Python `s.split(sep)` for a one-character separator: the result is
never empty and `"".split(sep) == [""]`. -/
def splitOn (sep : Char) : Chars → List Chars
  | [] => [[]]
  | c :: cs =>
    let r := splitOn sep cs
    if c = sep then [] :: r
    else
      match r with
      | [] => [[c]]
      | p :: ps => (c :: p) :: ps

/-- Hex digit as accepted by the `[0-9a-fA-F]` character class. -/
def isHexDig (c : Char) : Bool :=
  c.isDigit || ('a' ≤ c && c ≤ 'f') || ('A' ≤ c && c ≤ 'F')

/-- The UUID regex of `parse_uid_any`:
`[0-9a-fA-F]{8}-[0-9a-fA-F]{4}-[0-9a-fA-F]{4}-[0-9a-fA-F]{4}-[0-9a-fA-F]{12}`,
full match.  Expressed by splitting on the dashes. -/
def uuidLike (s : Chars) : Bool :=
  match splitOn '-' s with
  | [a, b, c, d, e] =>
      a.length == 8 && b.length == 4 && c.length == 4 && d.length == 4 &&
      e.length == 12 && (a ++ b ++ c ++ d ++ e).all isHexDig
  | _ => false

/-- Last two elements of the nonempty list `x :: y :: zs`
(`parts[-2]`, `parts[-1]`). -/
def last2 (x y : Chars) : List Chars → Chars × Chars
  | [] => (x, y)
  | z :: zs => last2 y z zs

/-- `parse_uid_any` on a string input.  Returns
`(uid_config, class_name, internal_id)`.
Split on `'$'`: ≥ 3 parts gives `(parts[0], parts[-2], parts[-1])`;
2 parts gives the singleton shorthand when the first part matches the
UUID pattern, else `(None, class, id)`; 1 part is a bare internal id. -/
def parseUidAnyC (s : Chars) : Option Chars × Option Chars × Chars :=
  match splitOn '$' s with
  | [p] => (none, none, p)
  | [p1, p2] =>
      if uuidLike p1 then (some p1, some p2, "singleton".toList)
      else (none, some p1, p2)
  | p1 :: p2 :: p3 :: rest =>
      let (sl, l) := last2 p2 p3 rest
      (some p1, some sl, l)
  | [] => (none, none, [])

/-- `extract_internal_id`: third component of `parse_uid_any`. -/
def extractInternalIdC (raw : Chars) : Chars :=
  (parseUidAnyC raw).2.2

/-- `normalize_own_uid`: re-extracts the internal id and produces
`config_uid$class_name$internal_id`. -/
def normalizeOwnUidC (cfg cls raw : Chars) : Chars :=
  cfg ++ '$' :: (cls ++ '$' :: extractInternalIdC raw)

/-- `parse_uid_any` over Lean `String`s (string input case). -/
def parse_uid_any (s : String) : Option String × Option String × String :=
  let (a, b, c) := parseUidAnyC s.toList
  (a.map List.asString, b.map List.asString, c.asString)

/-- `normalize_own_uid` over Lean `String`s. -/
def normalize_own_uid (cfg cls raw : String) : String :=
  (normalizeOwnUidC cfg.toList cls.toList raw.toList).asString

theorem splitOn_ne_nil (sep : Char) (s : Chars) : splitOn sep s ≠ [] := by
  cases s with
  | nil => simp [splitOn]
  | cons c cs =>
    simp only [splitOn]
    by_cases h : c = sep
    · simp [h]
    · simp only [h, if_false]
      cases splitOn sep cs with
      | nil => simp
      | cons p ps => simp

theorem splitOn_no_sep (sep : Char) (s : Chars) (h : sep ∉ s) :
    splitOn sep s = [s] := by
  induction s with
  | nil => rfl
  | cons c cs ih =>
    simp only [List.mem_cons, not_or] at h
    have hc : ¬ c = sep := fun hh => h.1 hh.symm
    simp only [splitOn, hc, if_false, ih h.2]

theorem splitOn_append (sep : Char) (k rest : Chars) (h : sep ∉ k) :
    splitOn sep (k ++ sep :: rest) = k :: splitOn sep rest := by
  induction k with
  | nil => simp [splitOn]
  | cons c cs ih =>
    simp only [List.mem_cons, not_or] at h
    have hc : ¬ c = sep := fun hh => h.1 hh.symm
    have h2 : splitOn sep (cs ++ sep :: rest) = cs :: splitOn sep rest := ih h.2
    simp only [List.cons_append, splitOn, List.append_eq, h2, hc, if_false]

theorem parse_normalize_roundtripC (K C s : Chars)
    (hK : '$' ∉ K) (hC : '$' ∉ C) (hs : '$' ∉ s) :
    parseUidAnyC (normalizeOwnUidC K C s) = (some K, some C, s) := by
  have hx : extractInternalIdC s = s := by
    simp [extractInternalIdC, parseUidAnyC, splitOn_no_sep '$' s hs]
  have h1 : splitOn '$' (K ++ '$' :: (C ++ '$' :: s)) = K :: C :: [s] := by
    rw [splitOn_append '$' K (C ++ '$' :: s) hK,
        splitOn_append '$' C s hC, splitOn_no_sep '$' s hs]
  rw [normalizeOwnUidC, hx, parseUidAnyC]
  simp only [List.cons_append]
  rw [h1]
  rfl

theorem normalize_idempotentC (K C s : Chars)
    (hK : '$' ∉ K) (hC : '$' ∉ C) (hs : '$' ∉ s) :
    normalizeOwnUidC K C (normalizeOwnUidC K C s) = normalizeOwnUidC K C s := by
  have h1 := parse_normalize_roundtripC K C s hK hC hs
  have h2 : extractInternalIdC (normalizeOwnUidC K C s) = s := by
    simp [extractInternalIdC, h1]
  have hx : extractInternalIdC s = s := by
    simp [extractInternalIdC, parseUidAnyC, splitOn_no_sep '$' s hs]
  have h3 : normalizeOwnUidC K C (normalizeOwnUidC K C s) =
      K ++ '$' :: (C ++ '$' :: extractInternalIdC (normalizeOwnUidC K C s)) := rfl
  rw [h3, h2, normalizeOwnUidC, hx]

/-- C8: UID round-trip.  For every config id `K`, class name `C` and
internal id `s`, none containing the `'$'` separator,
`parse_uid_any (normalize_own_uid K C s) = (K, C, s)`, and
`normalize_own_uid` re-extracts the internal id so that normalizing an
already-composite id is idempotent (no double-prefixing). -/
theorem claim_C8_uid_roundtrip (K C s : String)
    (hK : '$' ∉ K.toList) (hC : '$' ∉ C.toList) (hs : '$' ∉ s.toList) :
    parse_uid_any (normalize_own_uid K C s) = (some K, some C, s) ∧
    normalize_own_uid K C (normalize_own_uid K C s) = normalize_own_uid K C s := by
  constructor
  · simp only [parse_uid_any, normalize_own_uid, List.toList_asString,
      parse_normalize_roundtripC K.toList C.toList s.toList hK hC hs]
    rfl
  · simp only [normalize_own_uid, List.toList_asString]
    rw [normalize_idempotentC K.toList C.toList s.toList hK hC hs]

/-- Witness for C8 at the concrete triple `("cfg", "Cls", "42")`. -/
theorem claim_C8_uid_roundtrip_witness :
    ('$' ∉ "cfg".toList ∧ '$' ∉ "Cls".toList ∧ '$' ∉ "42".toList) ∧
    (parse_uid_any (normalize_own_uid "cfg" "Cls" "42") =
        (some "cfg", some "Cls", "42") ∧
      normalize_own_uid "cfg" "Cls" (normalize_own_uid "cfg" "Cls" "42") =
        normalize_own_uid "cfg" "Cls" "42") :=
  ⟨⟨by decide, by decide, by decide⟩,
    claim_C8_uid_roundtrip "cfg" "Cls" "42" (by decide) (by decide) (by decide)⟩

/-! ## Ledger engine (`_sum_transaction`, `_sum_transaction_unique`,
`_remove_sum_transaction_unique`, `_rebuild_sum_transactions`,
`_state_transaction`, `_get_balance`, `_get_state_balance`)

The per-scheme transaction list of one node
(`_data["_transactions"][scheme_name]` resp.
`_data["_state_transactions"][scheme_name]`) is embedded directly.
`uuid.uuid4()` is embedded as a fresh-uid counter; `SHA256` of the
formatted string `f"{uid}{parent}{balances}{period}"` is embedded as the
free constructor `HashV.sha256` of its four inputs — the claims only
compare hashes for equality along the chain.  The balance dict is an
insertion-ordered association list.  No before/after-persist handlers are
configured in the ledger claims, so the `_save()` at the end of each
operation persists the data unchanged and is not part of this model. -/

abbrev Balances := List (String × List Int)

def bGet (k : String) : Balances → Option (List Int)
  | [] => none
  | (k', v) :: rest => if k' = k then some v else bGet k rest

def bSet (k : String) (v : List Int) : Balances → Balances
  | [] => [(k, v)]
  | (k', v') :: rest =>
      if k' = k then (k', v) :: rest else (k', v') :: bSet k v rest

/-- The analytics key: `"::".join(str(k) for k in keys)`. -/
def keyStr (keys : List String) : String :=
  String.intercalate "::" keys

/-- `SHA256(f"{uid}{parent}{balances}{period}")`, idealized as a free
constructor of its inputs. -/
inductive HashV where
  | sha256 (uid : Nat) (parent : Option Nat) (balances : Balances)
      (period : String)
deriving DecidableEq, Repr

/-- The `meta` dict of a transaction, projected to the two keys the
engine reads (`dedup_key`, `source_uid`). -/
structure TxMeta where
  dedup_key : Option String := none
  source_uid : Option String := none
deriving DecidableEq, Repr

/-- One entry of `_transactions[scheme_name]`.  `uk` is the `"uk"` dedup
marker key, present only on entries made by `_sum_transaction_unique`. -/
structure Tx where
  uid : Nat
  uk : Option String := none
  parent : Option Nat
  child : Option Nat
  period : String
  keys : List String
  values : List Int
  balances : Balances
  hash : HashV
  prev_hash : Option HashV
  meta : TxMeta
deriving DecidableEq, Repr

/-- One entry of `_state_transactions[scheme_name]`: stores a
point-in-time `state` snapshot instead of cumulative balances. -/
structure STx where
  uid : Nat
  parent : Option Nat
  child : Option Nat
  period : String
  keys : List String
  values : List Int
  state : Balances
  hash : HashV
  prev_hash : Option HashV
  meta : TxMeta
deriving DecidableEq, Repr

/-- One scheme of one node: the two chains, the scheme's `_tx_index`
slice, and the fresh-uid counter. -/
structure Ledger where
  txs : List Tx := []
  stxs : List STx := []
  idx : List (String × Nat) := []
  nextUid : Nat := 0
deriving DecidableEq, Repr

def emptyLedger : Ledger := {}

/-- `last_tx["child"] = uid`: updates the last entry's child pointer. -/
def setLastChild (u : Nat) : List Tx → List Tx
  | [] => []
  | [t] => [{ t with child := some u }]
  | t :: t' :: rest => t :: setLastChild u (t' :: rest)

def setLastChildS (u : Nat) : List STx → List STx
  | [] => []
  | [t] => [{ t with child := some u }]
  | t :: t' :: rest => t :: setLastChildS u (t' :: rest)

/-- `Node._sum_transaction` (period already resolved; the Python default
is the current date).  Returns the new uid and the updated ledger. -/
def sumTransaction (period : String) (keys : List String) (values : List Int)
    (meta : TxMeta) (L : Ledger) : Nat × Ledger :=
  let last? := L.txs.getLast?
  let parentId := last?.map (·.uid)
  let balances :=
    match last? with
    | some t => t.balances
    | none => []
  let ks := keyStr keys
  let b1 :=
    match bGet ks balances with
    | some _ => balances
    | none => bSet ks (List.replicate values.length 0) balances
  let b2 := bSet ks (List.zipWith (· + ·) ((bGet ks b1).getD []) values) b1
  let uid := L.nextUid
  let prevHash := last?.map (·.hash)
  let txHash := HashV.sha256 uid parentId b2 period
  let tx : Tx :=
    { uid := uid, uk := none, parent := parentId, child := none,
      period := period, keys := keys, values := values, balances := b2,
      hash := txHash, prev_hash := prevHash, meta := meta }
  (uid, { L with txs := setLastChild uid L.txs ++ [tx],
                 nextUid := L.nextUid + 1 })

/-- `Node._sum_transaction_unique`.  `none` models the `ValueError` on an
empty `unique_key`; an existing entry with the same `uk` marker is
returned unchanged; otherwise appends like `_sum_transaction`, stamping
the marker. -/
def sumTransactionUnique (uk period : String) (keys : List String)
    (values : List Int) (meta : TxMeta) (L : Ledger) :
    Option (Nat × Ledger) :=
  if uk = "" then none
  else
    match L.txs.find? (fun t => decide (t.uk = some uk)) with
    | some t => some (t.uid, L)
    | none =>
      let last? := L.txs.getLast?
      let parentId := last?.map (·.uid)
      let balances :=
        match last? with
        | some t => t.balances
        | none => []
      let ks := keyStr keys
      let b1 :=
        match bGet ks balances with
        | some _ => balances
        | none => bSet ks (List.replicate values.length 0) balances
      let b2 := bSet ks (List.zipWith (· + ·) ((bGet ks b1).getD []) values) b1
      let uid := L.nextUid
      let prevHash := last?.map (·.hash)
      let txHash := HashV.sha256 uid parentId b2 period
      let tx : Tx :=
        { uid := uid, uk := some uk, parent := parentId, child := none,
          period := period, keys := keys, values := values, balances := b2,
          hash := txHash, prev_hash := prevHash, meta := meta }
      some (uid, { L with txs := setLastChild uid L.txs ++ [tx],
                          nextUid := L.nextUid + 1 })

/-- `Node._state_transaction`: identical linkage mechanics on the state
chain, but the entry stores the snapshot `{key_str: values}`. -/
def stateTransaction (period : String) (keys : List String)
    (values : List Int) (meta : TxMeta) (L : Ledger) : Nat × Ledger :=
  let last? := L.stxs.getLast?
  let parentId := last?.map (·.uid)
  let ks := keyStr keys
  let st : Balances := [(ks, values)]
  let uid := L.nextUid
  let prevHash := last?.map (·.hash)
  let txHash := HashV.sha256 uid parentId st period
  let tx : STx :=
    { uid := uid, parent := parentId, child := none, period := period,
      keys := keys, values := values, state := st, hash := txHash,
      prev_hash := prevHash, meta := meta }
  (uid, { L with stxs := setLastChildS uid L.stxs ++ [tx],
                 nextUid := L.nextUid + 1 })

/-- `Node._get_balance`: the last entry's balances, or empty. -/
def getBalance (L : Ledger) : Balances :=
  match L.txs.getLast? with
  | none => []
  | some t => t.balances

/-- `Node._get_state_balance`: the last state entry's snapshot, or empty. -/
def getStateBalance (L : Ledger) : Balances :=
  match L.stxs.getLast? with
  | none => []
  | some t => t.state

/-- The balance combine step of `_rebuild_sum_transactions`: elementwise
sum over the common prefix (`min_len` loop), the longer vector's tail
kept resp. appended — i.e. the zero-extended elementwise sum. -/
def addExt (a b : List Int) : List Int :=
  List.zipWith (· + ·) a b ++ a.drop b.length ++ b.drop a.length

/-- Modelled from the spec: `Node._tx_dedup_key` is called by
`_rebuild_sum_transactions` but is not defined anywhere under `src/`.
The spec says entries lacking a marker get one synthesized from
(scheme, period, keys, source id); embedded as an injective encoding of
that quadruple. -/
def txDedupKey (scheme period : String) (keys : List String)
    (sourceUid : String) : String :=
  String.intercalate "|" ([scheme, period] ++ keys ++ [sourceUid])

/-- `meta.get("source_uid") or (self._data.get("_id") or self._id)`:
`nodeSrc` stands for the node's own id fallback. -/
def sourceFor (m : TxMeta) (nodeSrc : String) : String :=
  match m.source_uid with
  | some s => if s = "" then nodeSrc else s
  | none => nodeSrc

/-- `idx[dk] = uid` on the rebuilt `_tx_index` dict. -/
def iSet (k : String) (u : Nat) : List (String × Nat) → List (String × Nat)
  | [] => [(k, u)]
  | (k', u') :: rest =>
      if k' = k then (k', u) :: rest else (k', u') :: iSet k u rest

/-- The loop body of `_rebuild_sum_transactions`: walks the remaining
entries in order, recomputing parent/child pointers, balances,
prev_hash/hash and the dedup index from scratch.  `prev` is the
previously rebuilt entry, `bal` the running balance dict, `ix` the
dedup-index accumulator. -/
def rebuildGo (scheme nodeSrc : String) (prev : Option Tx) (bal : Balances)
    (ix : List (String × Nat)) :
    List Tx → List Tx × List (String × Nat)
  | [] => ([], ix)
  | t :: rest =>
    let ks := keyStr t.keys
    let b0 :=
      match bGet ks bal with
      | some x => x
      | none => List.replicate t.values.length 0
    let bal' := bSet ks (addExt b0 t.values) bal
    let parentId := prev.map (·.uid)
    let prevHash := prev.map (·.hash)
    let h := HashV.sha256 t.uid parentId bal' t.period
    let (dk, meta') :=
      match t.meta.dedup_key with
      | some d =>
          if d = "" then
            let s := txDedupKey scheme t.period t.keys (sourceFor t.meta nodeSrc)
            (s, { t.meta with dedup_key := some s })
          else (d, t.meta)
      | none =>
          let s := txDedupKey scheme t.period t.keys (sourceFor t.meta nodeSrc)
          (s, { t.meta with dedup_key := some s })
    let t' : Tx :=
      { t with parent := parentId, child := rest.head?.map (·.uid),
               balances := bal', prev_hash := prevHash, hash := h,
               meta := meta' }
    let r := rebuildGo scheme nodeSrc (some t') bal' (iSet dk t.uid ix) rest
    (t' :: r.1, r.2)

/-- `Node._rebuild_sum_transactions`: full recompute over the scheme's
entries in original order; an empty chain just clears the scheme's
dedup index. -/
def rebuildL (scheme nodeSrc : String) (L : Ledger) : Ledger :=
  if L.txs = [] then { L with idx := [] }
  else
    let (txs', idx') := rebuildGo scheme nodeSrc none [] [] L.txs
    { L with txs := txs', idx := idx' }

/-- `Node._remove_sum_transaction_unique`: filters out the entries whose
`uk` marker equals `unique_key` and, when anything was removed, triggers
the rebuild. -/
def removeSumTransactionUnique (scheme nodeSrc uk : String) (L : Ledger) :
    Bool × Ledger :=
  if L.txs = [] then (false, L)
  else
    let newTxs := L.txs.filter (fun t => decide (¬ t.uk = some uk))
    if newTxs.length = L.txs.length then (false, L)
    else (true, rebuildL scheme nodeSrc { L with txs := newTxs })

/-- The ledger operations of one scheme of one node. -/
inductive LOp where
  | append (period : String) (keys : List String) (values : List Int)
      (meta : TxMeta)
  | appendUnique (uk period : String) (keys : List String)
      (values : List Int) (meta : TxMeta)
  | stateAppend (period : String) (keys : List String) (values : List Int)
      (meta : TxMeta)
  | rebuildOp
  | removeUnique (uk : String)

def execOp (scheme nodeSrc : String) : LOp → Ledger → Ledger
  | .append p k v m, L => (sumTransaction p k v m L).2
  | .appendUnique uk p k v m, L =>
      match sumTransactionUnique uk p k v m L with
      | some r => r.2
      | none => L
  | .stateAppend p k v m, L => (stateTransaction p k v m L).2
  | .rebuildOp, L => rebuildL scheme nodeSrc L
  | .removeUnique uk, L => (removeSumTransactionUnique scheme nodeSrc uk L).2

def runOps (scheme nodeSrc : String) (ops : List LOp) (L : Ledger) : Ledger :=
  ops.foldl (fun L op => execOp scheme nodeSrc op L) L

/-! ### The hash-chain linkage invariant -/

/-- `t` is correctly linked to the predecessor `prev` (no condition on
the very first entry). -/
def linkOk (prev : Option Tx) (t : Tx) : Bool :=
  match prev with
  | none => true
  | some p => decide (t.prev_hash = some p.hash) && decide (t.parent = some p.uid)

/-- Adjacent-pair linkage from a given predecessor: each entry's
`prev_hash` is the previous entry's `hash` and its `parent` the
previous entry's `uid`. -/
def chainLinkedFrom (prev : Option Tx) : List Tx → Bool
  | [] => true
  | t :: rest => linkOk prev t && chainLinkedFrom (some t) rest

def lastChildNone (l : List Tx) : Bool :=
  match l.getLast? with
  | none => true
  | some t => decide (t.child = none)

def chainInvB (l : List Tx) : Bool := chainLinkedFrom none l && lastChildNone l

def sLinkOk (prev : Option STx) (t : STx) : Bool :=
  match prev with
  | none => true
  | some p => decide (t.prev_hash = some p.hash) && decide (t.parent = some p.uid)

def sChainLinkedFrom (prev : Option STx) : List STx → Bool
  | [] => true
  | t :: rest => sLinkOk prev t && sChainLinkedFrom (some t) rest

def sLastChildNone (l : List STx) : Bool :=
  match l.getLast? with
  | none => true
  | some t => decide (t.child = none)

def sChainInvB (l : List STx) : Bool := sChainLinkedFrom none l && sLastChildNone l


def lastOr (prev : Option Tx) (l : List Tx) : Option Tx :=
  match l.getLast? with
  | some t => some t
  | none => prev

theorem lastOr_cons (prev : Option Tx) (a : Tx) (as : List Tx) :
    lastOr prev (a :: as) = lastOr (some a) as := by
  cases as with
  | nil => rfl
  | cons b bs =>
    simp only [lastOr, List.getLast?_cons_cons]
    cases h : (b :: bs).getLast? with
    | some x => rfl
    | none => simp [List.getLast?_eq_none_iff] at h

theorem chainLinkedFrom_append_one (l : List Tx) (t : Tx) :
    ∀ prev, chainLinkedFrom prev (l ++ [t]) =
      (chainLinkedFrom prev l && linkOk (lastOr prev l) t) := by
  induction l with
  | nil => intro prev; simp [chainLinkedFrom, lastOr]
  | cons a as ih =>
    intro prev
    simp only [List.cons_append, List.append_eq, chainLinkedFrom, ih (some a),
      lastOr_cons, Bool.and_assoc]

theorem setLastChild_getLast? (u : Nat) (l : List Tx) :
    (setLastChild u l).getLast? = l.getLast?.map (fun t => { t with child := some u }) := by
  induction l with
  | nil => rfl
  | cons a as ih =>
    cases as with
    | nil => rfl
    | cons b bs =>
      obtain ⟨hd, tl, hE⟩ : ∃ hd tl, setLastChild u (b :: bs) = hd :: tl := by
        cases bs <;> exact ⟨_, _, rfl⟩
      rw [setLastChild, hE, List.getLast?_cons_cons, ← hE, ih,
        List.getLast?_cons_cons]

theorem chainLinkedFrom_setLastChild (u : Nat) (l : List Tx) :
    ∀ prev, chainLinkedFrom prev (setLastChild u l) = chainLinkedFrom prev l := by
  induction l with
  | nil => intro prev; rfl
  | cons a as ih =>
    intro prev
    cases as with
    | nil => simp [setLastChild, chainLinkedFrom, linkOk]
    | cons b bs =>
      simp only [setLastChild, chainLinkedFrom, ih (some a)]

theorem chainInvB_push (l : List Tx) (u : Nat) (t : Tx)
    (hInv : chainInvB l = true)
    (hph : t.prev_hash = l.getLast?.map (·.hash))
    (hpar : t.parent = l.getLast?.map (·.uid))
    (hch : t.child = none) :
    chainInvB (setLastChild u l ++ [t]) = true := by
  have hlinked : chainLinkedFrom none l = true := by
    have := hInv
    unfold chainInvB at this
    exact (Bool.and_eq_true _ _ |>.mp this).1
  rw [chainInvB, chainLinkedFrom_append_one, chainLinkedFrom_setLastChild,
    hlinked]
  have hlink : linkOk (lastOr none (setLastChild u l)) t = true := by
    unfold lastOr
    rw [setLastChild_getLast?]
    cases hL : l.getLast? with
    | none => rfl
    | some p =>
      simp only [Option.map_some']
      rw [linkOk]
      simp only [Bool.and_eq_true, decide_eq_true_eq]
      constructor
      · rw [hph, hL]; rfl
      · rw [hpar, hL]; rfl
  rw [hlink]
  have hlast : lastChildNone (setLastChild u l ++ [t]) = true := by
    unfold lastChildNone
    rw [List.getLast?_concat]
    simp [hch]
  rw [hlast]
  rfl

def sLastOr (prev : Option STx) (l : List STx) : Option STx :=
  match l.getLast? with
  | some t => some t
  | none => prev

theorem sLastOr_cons (prev : Option STx) (a : STx) (as : List STx) :
    sLastOr prev (a :: as) = sLastOr (some a) as := by
  cases as with
  | nil => rfl
  | cons b bs =>
    simp only [sLastOr, List.getLast?_cons_cons]
    cases h : (b :: bs).getLast? with
    | some x => rfl
    | none => simp [List.getLast?_eq_none_iff] at h

theorem sChainLinkedFrom_append_one (l : List STx) (t : STx) :
    ∀ prev, sChainLinkedFrom prev (l ++ [t]) =
      (sChainLinkedFrom prev l && sLinkOk (sLastOr prev l) t) := by
  induction l with
  | nil => intro prev; simp [sChainLinkedFrom, sLastOr]
  | cons a as ih =>
    intro prev
    simp only [List.cons_append, List.append_eq, sChainLinkedFrom, ih (some a),
      sLastOr_cons, Bool.and_assoc]

theorem setLastChildS_getLast? (u : Nat) (l : List STx) :
    (setLastChildS u l).getLast? = l.getLast?.map (fun t => { t with child := some u }) := by
  induction l with
  | nil => rfl
  | cons a as ih =>
    cases as with
    | nil => rfl
    | cons b bs =>
      obtain ⟨hd, tl, hE⟩ : ∃ hd tl, setLastChildS u (b :: bs) = hd :: tl := by
        cases bs <;> exact ⟨_, _, rfl⟩
      rw [setLastChildS, hE, List.getLast?_cons_cons, ← hE, ih,
        List.getLast?_cons_cons]

theorem sChainLinkedFrom_setLastChildS (u : Nat) (l : List STx) :
    ∀ prev, sChainLinkedFrom prev (setLastChildS u l) = sChainLinkedFrom prev l := by
  induction l with
  | nil => intro prev; rfl
  | cons a as ih =>
    intro prev
    cases as with
    | nil => simp [setLastChildS, sChainLinkedFrom, sLinkOk]
    | cons b bs =>
      simp only [setLastChildS, sChainLinkedFrom, ih (some a)]

theorem sChainInvB_push (l : List STx) (u : Nat) (t : STx)
    (hInv : sChainInvB l = true)
    (hph : t.prev_hash = l.getLast?.map (·.hash))
    (hpar : t.parent = l.getLast?.map (·.uid))
    (hch : t.child = none) :
    sChainInvB (setLastChildS u l ++ [t]) = true := by
  have hlinked : sChainLinkedFrom none l = true := by
    have := hInv
    unfold sChainInvB at this
    exact (Bool.and_eq_true _ _ |>.mp this).1
  rw [sChainInvB, sChainLinkedFrom_append_one, sChainLinkedFrom_setLastChildS,
    hlinked]
  have hlink : sLinkOk (sLastOr none (setLastChildS u l)) t = true := by
    unfold sLastOr
    rw [setLastChildS_getLast?]
    cases hL : l.getLast? with
    | none => rfl
    | some p =>
      simp only [Option.map_some']
      rw [sLinkOk]
      simp only [Bool.and_eq_true, decide_eq_true_eq]
      constructor
      · rw [hph, hL]; rfl
      · rw [hpar, hL]; rfl
  rw [hlink]
  have hlast : sLastChildNone (setLastChildS u l ++ [t]) = true := by
    unfold sLastChildNone
    rw [List.getLast?_concat]
    simp [hch]
  rw [hlast]
  rfl

theorem sumTransaction_txs_inv (p : String) (k : List String) (v : List Int)
    (m : TxMeta) (L : Ledger) (h : chainInvB L.txs = true) :
    chainInvB ((sumTransaction p k v m L).2).txs = true := by
  unfold sumTransaction
  dsimp only
  refine chainInvB_push L.txs _ ?_ h ?_ ?_ ?_ <;> rfl

theorem stateTransaction_stxs_inv (p : String) (k : List String) (v : List Int)
    (m : TxMeta) (L : Ledger) (h : sChainInvB L.stxs = true) :
    sChainInvB ((stateTransaction p k v m L).2).stxs = true := by
  unfold stateTransaction
  dsimp only
  refine sChainInvB_push L.stxs _ ?_ h ?_ ?_ ?_ <;> rfl

theorem rebuildGo_linked (scheme src : String) :
    ∀ (l : List Tx) (prev : Option Tx) (bal : Balances)
      (ix : List (String × Nat)),
      chainLinkedFrom prev ((rebuildGo scheme src prev bal ix l).1) = true := by
  intro l
  induction l with
  | nil => intro prev bal ix; rfl
  | cons t rest ih =>
    intro prev bal ix
    rw [rebuildGo]
    dsimp only
    rw [chainLinkedFrom, Bool.and_eq_true]
    constructor
    · cases prev with
      | none => rfl
      | some p => simp [linkOk]
    · exact ih (some _) _ _

theorem lastChildNone_cons_of_ne_nil (a : Tx) (l : List Tx) (h : l ≠ []) :
    lastChildNone (a :: l) = lastChildNone l := by
  cases l with
  | nil => exact absurd rfl h
  | cons b bs => simp [lastChildNone, List.getLast?_cons_cons]

theorem rebuildGo_ne_nil (scheme src : String) (t : Tx) (rest : List Tx)
    (prev : Option Tx) (bal : Balances) (ix : List (String × Nat)) :
    (rebuildGo scheme src prev bal ix (t :: rest)).1 ≠ [] := by
  rw [rebuildGo]
  dsimp only
  simp

theorem rebuildGo_lastChildNone (scheme src : String) :
    ∀ (l : List Tx) (prev : Option Tx) (bal : Balances)
      (ix : List (String × Nat)), l ≠ [] →
      lastChildNone ((rebuildGo scheme src prev bal ix l).1) = true := by
  intro l
  induction l with
  | nil => intro prev bal ix h; exact absurd rfl h
  | cons t rest ih =>
    intro prev bal ix _
    cases rest with
    | nil => rfl
    | cons t2 rest2 =>
      rw [rebuildGo]
      dsimp only
      rw [lastChildNone_cons_of_ne_nil _ _ (rebuildGo_ne_nil scheme src t2 rest2 _ _ _)]
      exact ih (some _) _ _ (by simp)

theorem rebuildL_txs_inv (scheme src : String) (L : Ledger) :
    chainInvB ((rebuildL scheme src L).txs) = true := by
  unfold rebuildL
  by_cases h : L.txs = []
  · rw [if_pos h]
    show chainInvB L.txs = true
    rw [h]; rfl
  · rw [if_neg h]
    dsimp only
    rw [chainInvB, rebuildGo_linked, rebuildGo_lastChildNone scheme src L.txs none [] [] h]
    rfl

theorem removeUnique_txs_inv (scheme src uk : String) (L : Ledger)
    (h : chainInvB L.txs = true) :
    chainInvB ((removeSumTransactionUnique scheme src uk L).2).txs = true := by
  unfold removeSumTransactionUnique
  by_cases h0 : L.txs = []
  · rw [if_pos h0]; exact h
  · rw [if_neg h0]
    dsimp only
    by_cases h1 : (L.txs.filter (fun t => decide (¬ t.uk = some uk))).length = L.txs.length
    · rw [if_pos h1]; exact h
    · rw [if_neg h1]
      exact rebuildL_txs_inv scheme src _

theorem sumTransactionUnique_txs_inv (uk p : String) (k : List String)
    (v : List Int) (m : TxMeta) (L : Ledger) (h : chainInvB L.txs = true) :
    chainInvB ((match sumTransactionUnique uk p k v m L with
      | some r => r.2
      | none => L).txs) = true := by
  unfold sumTransactionUnique
  by_cases h0 : uk = ""
  · rw [if_pos h0]; exact h
  · rw [if_neg h0]
    cases hf : L.txs.find? (fun t => decide (t.uk = some uk)) with
    | some t => exact h
    | none =>
      dsimp only
      refine chainInvB_push L.txs _ ?_ h ?_ ?_ ?_ <;> rfl

theorem execOp_inv (scheme src : String) (op : LOp) (L : Ledger)
    (h1 : chainInvB L.txs = true) (h2 : sChainInvB L.stxs = true) :
    chainInvB ((execOp scheme src op L).txs) = true ∧
    sChainInvB ((execOp scheme src op L).stxs) = true := by
  cases op with
  | append p k v m => exact ⟨sumTransaction_txs_inv p k v m L h1, h2⟩
  | appendUnique uk p k v m =>
    constructor
    · exact sumTransactionUnique_txs_inv uk p k v m L h1
    · show sChainInvB ((match sumTransactionUnique uk p k v m L with
        | some r => r.2 | none => L).stxs) = true
      unfold sumTransactionUnique
      by_cases h0 : uk = ""
      · rw [if_pos h0]; exact h2
      · rw [if_neg h0]
        cases hf : L.txs.find? (fun t => decide (t.uk = some uk)) with
        | some t => exact h2
        | none => exact h2
  | stateAppend p k v m => exact ⟨h1, stateTransaction_stxs_inv p k v m L h2⟩
  | rebuildOp =>
    constructor
    · exact rebuildL_txs_inv scheme src L
    · show sChainInvB ((rebuildL scheme src L).stxs) = true
      unfold rebuildL
      by_cases h0 : L.txs = []
      · rw [if_pos h0]; exact h2
      · rw [if_neg h0]; exact h2
  | removeUnique uk =>
    constructor
    · exact removeUnique_txs_inv scheme src uk L h1
    · show sChainInvB ((removeSumTransactionUnique scheme src uk L).2).stxs = true
      unfold removeSumTransactionUnique
      by_cases h0 : L.txs = []
      · rw [if_pos h0]; exact h2
      · rw [if_neg h0]
        dsimp only
        by_cases hl : (L.txs.filter (fun t => decide (¬ t.uk = some uk))).length = L.txs.length
        · rw [if_pos hl]; exact h2
        · rw [if_neg hl]
          show sChainInvB ((rebuildL scheme src _).stxs) = true
          unfold rebuildL
          by_cases hr : (L.txs.filter (fun t => decide (¬ t.uk = some uk))) = []
          · simp only [hr, if_pos]
            exact h2
          · simp only [if_neg hr]
            exact h2

theorem runOps_inv (scheme src : String) (ops : List LOp) :
    ∀ (L : Ledger), chainInvB L.txs = true → sChainInvB L.stxs = true →
      chainInvB ((runOps scheme src ops L).txs) = true ∧
      sChainInvB ((runOps scheme src ops L).stxs) = true := by
  induction ops with
  | nil => intro L h1 h2; exact ⟨h1, h2⟩
  | cons op rest ih =>
    intro L h1 h2
    have h := execOp_inv scheme src op L h1 h2
    exact ih _ h.1 h.2

theorem chainLinkedFrom_get :
    ∀ (l : List Tx) (prev : Option Tx), chainLinkedFrom prev l = true →
      ∀ i (h : i + 1 < l.length),
        (l.get ⟨i+1, h⟩).prev_hash =
          some ((l.get ⟨i, Nat.lt_of_succ_lt h⟩).hash) ∧
        (l.get ⟨i+1, h⟩).parent =
          some ((l.get ⟨i, Nat.lt_of_succ_lt h⟩).uid) := by
  intro l
  induction l with
  | nil => intro prev _ i h; simp at h
  | cons t rest ih =>
    intro prev hc i h
    rw [chainLinkedFrom, Bool.and_eq_true] at hc
    cases i with
    | zero =>
      cases rest with
      | nil => simp at h
      | cons t2 rest2 =>
        have h2 := hc.2
        rw [chainLinkedFrom, Bool.and_eq_true] at h2
        have h3 := h2.1
        rw [linkOk] at h3
        simp only [Bool.and_eq_true, decide_eq_true_eq] at h3
        exact ⟨h3.1, h3.2⟩
    | succ j =>
      exact ih (some t) hc.2 j (Nat.lt_of_succ_lt_succ h)

theorem sChainLinkedFrom_get :
    ∀ (l : List STx) (prev : Option STx), sChainLinkedFrom prev l = true →
      ∀ i (h : i + 1 < l.length),
        (l.get ⟨i+1, h⟩).prev_hash =
          some ((l.get ⟨i, Nat.lt_of_succ_lt h⟩).hash) ∧
        (l.get ⟨i+1, h⟩).parent =
          some ((l.get ⟨i, Nat.lt_of_succ_lt h⟩).uid) := by
  intro l
  induction l with
  | nil => intro prev _ i h; simp at h
  | cons t rest ih =>
    intro prev hc i h
    rw [sChainLinkedFrom, Bool.and_eq_true] at hc
    cases i with
    | zero =>
      cases rest with
      | nil => simp at h
      | cons t2 rest2 =>
        have h2 := hc.2
        rw [sChainLinkedFrom, Bool.and_eq_true] at h2
        have h3 := h2.1
        rw [sLinkOk] at h3
        simp only [Bool.and_eq_true, decide_eq_true_eq] at h3
        exact ⟨h3.1, h3.2⟩
    | succ j =>
      exact ih (some t) hc.2 j (Nat.lt_of_succ_lt_succ h)

/-- C1: after any sequence of ledger operations (append, append_unique,
state_append, rebuild — and also remove_unique) on one scheme of one
node, starting from the empty ledger, both ordered entry lists satisfy
the linkage invariant: for every index `i > 0`, entry `i`'s `prev_hash`
is entry `i-1`'s `hash` and its `parent` is entry `i-1`'s `uid`, and the
last entry's `child` pointer is null. -/
theorem claim_C1_chain_invariant (scheme nodeSrc : String) (ops : List LOp) :
    (∀ i (h : i + 1 < (runOps scheme nodeSrc ops emptyLedger).txs.length),
        ((runOps scheme nodeSrc ops emptyLedger).txs.get ⟨i+1, h⟩).prev_hash =
          some (((runOps scheme nodeSrc ops emptyLedger).txs.get
            ⟨i, Nat.lt_of_succ_lt h⟩).hash) ∧
        ((runOps scheme nodeSrc ops emptyLedger).txs.get ⟨i+1, h⟩).parent =
          some (((runOps scheme nodeSrc ops emptyLedger).txs.get
            ⟨i, Nat.lt_of_succ_lt h⟩).uid)) ∧
    lastChildNone (runOps scheme nodeSrc ops emptyLedger).txs = true ∧
    (∀ i (h : i + 1 < (runOps scheme nodeSrc ops emptyLedger).stxs.length),
        ((runOps scheme nodeSrc ops emptyLedger).stxs.get ⟨i+1, h⟩).prev_hash =
          some (((runOps scheme nodeSrc ops emptyLedger).stxs.get
            ⟨i, Nat.lt_of_succ_lt h⟩).hash) ∧
        ((runOps scheme nodeSrc ops emptyLedger).stxs.get ⟨i+1, h⟩).parent =
          some (((runOps scheme nodeSrc ops emptyLedger).stxs.get
            ⟨i, Nat.lt_of_succ_lt h⟩).uid)) ∧
    sLastChildNone (runOps scheme nodeSrc ops emptyLedger).stxs = true := by
  have h := runOps_inv scheme nodeSrc ops emptyLedger rfl rfl
  have h1 := h.1
  have h2 := h.2
  rw [chainInvB, Bool.and_eq_true] at h1
  rw [sChainInvB, Bool.and_eq_true] at h2
  exact ⟨chainLinkedFrom_get _ none h1.1, h1.2,
    sChainLinkedFrom_get _ none h2.1, h2.2⟩

/-- Witness for C1: two appends followed by a state append and a rebuild;
the linkage equations hold at index 1 of the sum chain and the last
child pointer is null. -/
theorem claim_C1_chain_invariant_witness :
    (((runOps "s" "n" [LOp.append "p" ["a"] [5] {}, LOp.append "p" ["a"] [3] {},
        LOp.stateAppend "p" ["b"] [7] {}, LOp.rebuildOp] emptyLedger).txs.get
          ⟨1, by decide⟩).prev_hash =
      some (((runOps "s" "n" [LOp.append "p" ["a"] [5] {}, LOp.append "p" ["a"] [3] {},
        LOp.stateAppend "p" ["b"] [7] {}, LOp.rebuildOp] emptyLedger).txs.get
          ⟨0, by decide⟩).hash)) ∧
    lastChildNone
      (runOps "s" "n" [LOp.append "p" ["a"] [5] {}, LOp.append "p" ["a"] [3] {},
        LOp.stateAppend "p" ["b"] [7] {}, LOp.rebuildOp] emptyLedger).txs = true := by
  have h := claim_C1_chain_invariant "s" "n"
    [LOp.append "p" ["a"] [5] {}, LOp.append "p" ["a"] [3] {},
     LOp.stateAppend "p" ["b"] [7] {}, LOp.rebuildOp]
  exact ⟨(h.1 0 (by decide)).1, h.2.1⟩


theorem setLastChild_length (u : Nat) (l : List Tx) :
    (setLastChild u l).length = l.length := by
  induction l with
  | nil => rfl
  | cons a as ih =>
    cases as with
    | nil => rfl
    | cons b bs => simp only [setLastChild, List.length_cons, ih]

theorem setLastChild_map_uk (u : Nat) (l : List Tx) :
    (setLastChild u l).map (·.uk) = l.map (·.uk) := by
  induction l with
  | nil => rfl
  | cons a as ih =>
    cases as with
    | nil => rfl
    | cons b bs => simp only [setLastChild, List.map_cons, ih]

theorem find?_append_of_none {α} (p : α → Bool) (l1 l2 : List α)
    (h : ∀ x ∈ l1, p x = false) : (l1 ++ l2).find? p = l2.find? p := by
  induction l1 with
  | nil => rfl
  | cons a as ih =>
    have ha : p a = false := h a (List.mem_cons_self a as)
    rw [List.cons_append, List.find?_cons_of_neg _ (by simp [ha]),
      ih (fun x hx => h x (List.mem_cons_of_mem a hx))]

/-- C2: `append_unique` is idempotent in the dedup marker.  For a
non-empty `unique_key` not yet present on the chain, the first call
appends one entry; the second call with the same `unique_key` returns
the same transaction uid and leaves the ledger (in particular the
chain) unchanged; across the two calls the chain length grows by
exactly 1. -/
theorem claim_C2_dedup_idempotent (uk p1 p2 : String) (k1 k2 : List String)
    (v1 v2 : List Int) (m1 m2 : TxMeta) (L : Ledger)
    (hne : uk ≠ "") (hfresh : ∀ t ∈ L.txs, t.uk ≠ some uk) :
    (∃ r1, sumTransactionUnique uk p1 k1 v1 m1 L = some r1) ∧
    ∀ r1, sumTransactionUnique uk p1 k1 v1 m1 L = some r1 →
      sumTransactionUnique uk p2 k2 v2 m2 r1.2 = some (r1.1, r1.2) ∧
      r1.2.txs.length = L.txs.length + 1 := by
  have hfind : L.txs.find? (fun t => decide (t.uk = some uk)) = none := by
    rw [List.find?_eq_none]
    intro t ht
    simp [hfresh t ht]
  constructor
  · rw [sumTransactionUnique, if_neg hne, hfind]
    exact ⟨_, rfl⟩
  · intro r1 heq
    rw [sumTransactionUnique, if_neg hne, hfind] at heq
    dsimp only at heq
    obtain rfl : _ = r1 := Option.some.inj heq
    constructor
    · rw [sumTransactionUnique, if_neg hne]
      dsimp only
      rw [find?_append_of_none]
      · rw [List.find?_cons_of_pos _ (by simp)]
      · intro x hx
        have : x.uk ∈ (setLastChild L.nextUid L.txs).map (·.uk) :=
          List.mem_map_of_mem _ hx
        rw [setLastChild_map_uk] at this
        obtain ⟨t, ht, huk⟩ := List.mem_map.mp this
        simp only [decide_eq_false_iff_not]
        rw [← huk]
        exact hfresh t ht
    · dsimp only
      rw [List.length_append, setLastChild_length]
      rfl

/-- Witness for C2 at a concrete ledger: one prior non-unique entry,
then two `append_unique` calls with key `"k"`. -/
theorem claim_C2_dedup_idempotent_witness :
    (("k" : String) ≠ "" ∧
      ∀ t ∈ ((sumTransaction "p" ["a"] [5] {} emptyLedger).2).txs,
        t.uk ≠ some "k") ∧
    ((∃ r1, sumTransactionUnique "k" "q" ["b"] [7] {}
        ((sumTransaction "p" ["a"] [5] {} emptyLedger).2) = some r1) ∧
      ∀ r1, sumTransactionUnique "k" "q" ["b"] [7] {}
          ((sumTransaction "p" ["a"] [5] {} emptyLedger).2) = some r1 →
        sumTransactionUnique "k" "r" ["c"] [9] {} r1.2 = some (r1.1, r1.2) ∧
        r1.2.txs.length =
          ((sumTransaction "p" ["a"] [5] {} emptyLedger).2).txs.length + 1) :=
  ⟨⟨by decide, by decide⟩,
    claim_C2_dedup_idempotent "k" "q" "r" ["b"] ["c"] [7] [9] {} {}
      ((sumTransaction "p" ["a"] [5] {} emptyLedger).2) (by decide) (by decide)⟩


theorem bGet_bSet_self (k : String) (v : List Int) (b : Balances) :
    bGet k (bSet k v b) = some v := by
  induction b with
  | nil => simp [bGet, bSet]
  | cons hd rest ih =>
    obtain ⟨k', v'⟩ := hd
    by_cases h : k' = k
    · simp [bGet, bSet, h]
    · simp [bGet, bSet, h, ih]

/-- C4 counterexample: on a length mismatch `_sum_transaction` sums with
Python `zip`, truncating to the shorter vector — not zero-extending.
Appending values `[1, 2]` then `[5]` under key `"a"` leaves balance
`[6]`, whereas the claimed zero-extended sum is `[6, 2]`. -/
theorem claim_C4_counterexample :
    bGet "a" (getBalance ((sumTransaction "p" ["a"] [5] {}
        ((sumTransaction "p" ["a"] [1, 2] {} emptyLedger).2)).2)) = some [6] ∧
    addExt [1, 2] [5] = [6, 2] ∧
    ¬ bGet "a" (getBalance ((sumTransaction "p" ["a"] [5] {}
        ((sumTransaction "p" ["a"] [1, 2] {} emptyLedger).2)).2)) =
      some (addExt [1, 2] [5]) := by decide

/-- C4 amended: for every `append` (`_sum_transaction`) the new entry's
balance vector for the analytics key is the previous entry's vector for
that key (zero-initialized to `len(values)` if the key is new) summed
elementwise with `values`, where on a length mismatch the sum is
truncated to the shorter of the two vectors (Python `zip`); in
particular appending `[5]` then `[3]` under key `"a"` makes
`current_balance` return `[8]` for `"a"`. -/
theorem claim_C4_amended (p : String) (keys : List String)
    (values : List Int) (m : TxMeta) (L : Ledger) :
    bGet (keyStr keys) (getBalance ((sumTransaction p keys values m L).2)) =
      some (List.zipWith (· + ·)
        ((bGet (keyStr keys) (getBalance L)).getD
          (List.replicate values.length 0))
        values) ∧
    bGet "a" (getBalance ((sumTransaction "p" ["a"] [3] {}
        ((sumTransaction "p" ["a"] [5] {} emptyLedger).2)).2)) = some [8] := by
  constructor
  · unfold sumTransaction
    dsimp only
    rw [getBalance, List.getLast?_concat]
    dsimp only
    rw [bGet_bSet_self, getBalance]
    cases hL : L.txs.getLast? with
    | none =>
      dsimp only
      simp [bGet, bSet]
    | some t =>
      dsimp only
      cases hb : bGet (keyStr keys) t.balances with
      | some w =>
        dsimp only
        rw [hb]
        rfl
      | none =>
        dsimp only
        rw [bGet_bSet_self]
        rfl
  · decide

/-- C10: after any `state_append` (`_state_transaction`), `current_state`
(`_get_state_balance`) returns a map containing exactly the most recent
entry's analytics key, mapped to that entry's values; snapshots recorded
earlier under different analytics keys are absent. -/
theorem claim_C10_state_balance (p : String) (keys : List String)
    (values : List Int) (m : TxMeta) (L : Ledger) :
    getStateBalance ((stateTransaction p keys values m L).2) =
      [(keyStr keys, values)] ∧
    bGet (keyStr keys)
      (getStateBalance ((stateTransaction p keys values m L).2)) =
        some values ∧
    ∀ k2, k2 ≠ keyStr keys →
      bGet k2 (getStateBalance ((stateTransaction p keys values m L).2)) =
        none := by
  have h : getStateBalance ((stateTransaction p keys values m L).2) =
      [(keyStr keys, values)] := by
    unfold stateTransaction
    dsimp only
    rw [getStateBalance, List.getLast?_concat]
  refine ⟨h, ?_, ?_⟩
  · rw [h]; simp [bGet]
  · intro k2 hk2
    rw [h]
    simp only [bGet]
    rw [if_neg (fun hh => hk2 hh.symm)]

/-- Witness for C10: a snapshot under key `"a"` followed by one under
`"b"`; the earlier key `"a"` is absent from the current state. -/
theorem claim_C10_state_balance_witness :
    (("a" : String) ≠ keyStr ["b"]) ∧
    bGet "a" (getStateBalance ((stateTransaction "q" ["b"] [7] {}
      ((stateTransaction "p" ["a"] [5] {} emptyLedger).2)).2)) = none :=
  ⟨by decide,
    (claim_C10_state_balance "q" ["b"] [7] {}
      ((stateTransaction "p" ["a"] [5] {} emptyLedger).2)).2.2 "a" (by decide)⟩


theorem bGet_bSet_other (k k' : String) (v : List Int) (b : Balances)
    (h : k' ≠ k) : bGet k (bSet k' v b) = bGet k b := by
  induction b with
  | nil => simp [bGet, bSet, h]
  | cons hd rest ih =>
    obtain ⟨k0, v0⟩ := hd
    by_cases h0 : k0 = k'
    · subst h0
      simp [bGet, bSet, h]
    · simp only [bSet, if_neg h0, bGet]
      by_cases h1 : k0 = k
      · simp [h1]
      · simp [h1, ih]

theorem addExt_nil_left (b : List Int) : addExt [] b = b := by
  simp [addExt]

theorem addExt_nil_right (a : List Int) : addExt a [] = a := by
  simp [addExt]

theorem addExt_cons_cons (x y : Int) (xs ys : List Int) :
    addExt (x :: xs) (y :: ys) = (x + y) :: addExt xs ys := by
  simp [addExt]

theorem addExt_replicate_zero (v : List Int) :
    addExt (List.replicate v.length 0) v = v := by
  induction v with
  | nil => rfl
  | cons x xs ih =>
    rw [List.length_cons, List.replicate_succ, addExt_cons_cons, ih, zero_add]

theorem addExt_getD (a : List Int) :
    ∀ (b : List Int) (j : Nat),
      (addExt a b).getD j 0 = a.getD j 0 + b.getD j 0 := by
  induction a with
  | nil => intro b j; rw [addExt_nil_left]; simp
  | cons x xs ih =>
    intro b j
    cases b with
    | nil => rw [addExt_nil_right]; simp
    | cons y ys =>
      rw [addExt_cons_cons]
      cases j with
      | zero => simp [List.getD]
      | succ i => simpa [List.getD] using ih ys i

/-- The zero-extended elementwise sum of a list of vectors (the balance
accumulation performed by `_rebuild_sum_transactions` for one key). -/
def vecSumExt (vs : List (List Int)) : List Int :=
  vs.foldl addExt []

theorem foldl_addExt_getD (vs : List (List Int)) :
    ∀ (acc : List Int) (j : Nat),
      (vs.foldl addExt acc).getD j 0 =
        acc.getD j 0 + (vs.map (fun v => v.getD j 0)).sum := by
  induction vs with
  | nil => intro acc j; simp
  | cons v rest ih =>
    intro acc j
    rw [List.foldl_cons, ih (addExt acc v) j, addExt_getD]
    simp [add_assoc]

theorem vecSumExt_getD (vs : List (List Int)) (j : Nat) :
    (vecSumExt vs).getD j 0 = (vs.map (fun v => v.getD j 0)).sum := by
  rw [vecSumExt, foldl_addExt_getD]
  simp

/-- The per-entry balance update of `_rebuild_sum_transactions`. -/
def balStep (b : Balances) (t : Tx) : Balances :=
  bSet (keyStr t.keys)
    (addExt ((bGet (keyStr t.keys) b).getD []) t.values) b

/-- The cumulative balance dict after replaying entries `l` over `b`. -/
def balFold (b : Balances) (l : List Tx) : Balances :=
  l.foldl balStep b

theorem codeStep_eq (bal : Balances) (t : Tx) :
    bSet (keyStr t.keys)
      (addExt
        (match bGet (keyStr t.keys) bal with
         | some x => x
         | none => List.replicate t.values.length 0)
        t.values) bal = balStep bal t := by
  unfold balStep
  cases h : bGet (keyStr t.keys) bal with
  | some x => rfl
  | none =>
    dsimp only [Option.getD]
    rw [addExt_replicate_zero, addExt_nil_left]

/-- The values of the remaining entries under analytics key `k`. -/
def valuesFor (k : String) (l : List Tx) : List (List Int) :=
  (l.filter (fun t => decide (keyStr t.keys = k))).map (·.values)

theorem bGet_balFold (k : String) :
    ∀ (l : List Tx) (b : Balances),
      bGet k (balFold b l) =
        if valuesFor k l = [] then bGet k b
        else some (List.foldl addExt ((bGet k b).getD []) (valuesFor k l)) := by
  intro l
  induction l with
  | nil => intro b; simp [balFold, valuesFor]
  | cons t rest ih =>
    intro b
    by_cases hk : keyStr t.keys = k
    · have hv : valuesFor k (t :: rest) = t.values :: valuesFor k rest := by
        simp [valuesFor, List.filter_cons, hk]
      have hb : bGet k (balStep b t) =
          some (addExt ((bGet k b).getD []) t.values) := by
        unfold balStep
        rw [hk, bGet_bSet_self]
      rw [balFold, List.foldl_cons, ← balFold, ih (balStep b t), hv]
      by_cases hr : valuesFor k rest = []
      · rw [if_pos hr, hr, if_neg (by simp), hb]
        rfl
      · rw [if_neg hr, if_neg (by simp), hb]
        rfl
    · have hv : valuesFor k (t :: rest) = valuesFor k rest := by
        simp [valuesFor, List.filter_cons, hk]
      have hb : bGet k (balStep b t) = bGet k b := by
        unfold balStep
        exact bGet_bSet_other _ _ _ _ hk
      rw [balFold, List.foldl_cons, ← balFold, ih (balStep b t), hv, hb]

theorem getLast?_cons_of_ne_nil {α} (a : α) (l : List α) (h : l ≠ []) :
    (a :: l).getLast? = l.getLast? := by
  cases l with
  | nil => exact absurd rfl h
  | cons b bs => rw [List.getLast?_cons_cons]

theorem rebuildGo_map_core (scheme src : String) :
    ∀ (l : List Tx) (prev : Option Tx) (bal : Balances)
      (ix : List (String × Nat)),
      ((rebuildGo scheme src prev bal ix l).1).map
          (fun t => (t.uid, t.keys, t.values, t.period)) =
        l.map (fun t => (t.uid, t.keys, t.values, t.period)) := by
  intro l
  induction l with
  | nil => intro prev bal ix; rfl
  | cons t rest ih =>
    intro prev bal ix
    rw [rebuildGo]
    dsimp only
    rw [List.map_cons, List.map_cons, ih]

theorem rebuildGo_last_balances (scheme src : String) :
    ∀ (l : List Tx) (prev : Option Tx) (bal : Balances)
      (ix : List (String × Nat)), l ≠ [] →
      ((rebuildGo scheme src prev bal ix l).1).getLast?.map (·.balances) =
        some (balFold bal l) := by
  intro l
  induction l with
  | nil => intro prev bal ix h; exact absurd rfl h
  | cons t rest ih =>
    intro prev bal ix _
    cases rest with
    | nil =>
      rw [rebuildGo]
      dsimp only
      rw [show (rebuildGo scheme src _ _ _ []).1 = [] from rfl]
      simp only [List.getLast?_singleton, Option.map_some']
      rw [codeStep_eq]
      rfl
    | cons t2 rest2 =>
      rw [rebuildGo]
      dsimp only
      rw [getLast?_cons_of_ne_nil _ _ (rebuildGo_ne_nil scheme src t2 rest2 _ _ _)]
      rw [ih (some _) _ _ (by simp), codeStep_eq]
      rfl

theorem filter_length_ne {α} (p : α → Bool) :
    ∀ (l : List α), (∃ x ∈ l, p x = false) → (l.filter p).length ≠ l.length := by
  intro l
  induction l with
  | nil => rintro ⟨x, hx, _⟩; cases hx
  | cons a as ih =>
    rintro ⟨x, hx, hpx⟩
    cases hpa : p a with
    | false =>
      simp only [List.filter_cons, hpa, Bool.false_eq_true, if_false,
        List.length_cons]
      have := List.length_filter_le p as
      omega
    | true =>
      simp only [List.filter_cons, hpa, if_true, List.length_cons]
      cases List.mem_cons.mp hx with
      | inl heq =>
        subst heq
        rw [hpa] at hpx
        cases hpx
      | inr hmem =>
        have := ih ⟨x, hmem, hpx⟩
        omega

theorem rebuildL_map_core (scheme src : String) (M : Ledger) :
    ((rebuildL scheme src M).txs).map
        (fun t => (t.uid, t.keys, t.values, t.period)) =
      M.txs.map (fun t => (t.uid, t.keys, t.values, t.period)) := by
  unfold rebuildL
  by_cases h : M.txs = []
  · rw [if_pos h]
  · rw [if_neg h]
    exact rebuildGo_map_core scheme src M.txs none [] []

theorem getBalance_nil (M : Ledger) (h : M.txs = []) : getBalance M = [] := by
  unfold getBalance
  rw [h]
  rfl

theorem getBalance_rebuildL (scheme src : String) (M : Ledger)
    (h : M.txs ≠ []) :
    getBalance (rebuildL scheme src M) = balFold [] M.txs := by
  rw [rebuildL, if_neg h]
  have hlast := rebuildGo_last_balances scheme src M.txs none [] [] h
  rw [getBalance]
  cases hL : ((rebuildGo scheme src none [] [] M.txs).1).getLast? with
  | none => rw [hL] at hlast; cases hlast
  | some tl =>
    rw [hL] at hlast
    dsimp only
    exact Option.some.inj hlast

/-- C3: `remove_unique` followed by the triggered rebuild.  When some
entry carries the dedup marker `uk`, the call returns `true`, exactly
the matching entries are removed (all core fields of the survivors are
preserved in order), the hash-chain linkage invariant holds again, and
the final balances map each analytics key present among the remaining
entries to the zero-extended elementwise sum of their values (and no
other key is present).  When no entry matches, the call returns `false`
and the ledger is unchanged. -/
theorem claim_C3_remove_rebuild (scheme nodeSrc uk : String) (L : Ledger) :
    ((∀ t ∈ L.txs, ¬ t.uk = some uk) →
        removeSumTransactionUnique scheme nodeSrc uk L = (false, L)) ∧
    ((∃ t ∈ L.txs, t.uk = some uk) →
        (removeSumTransactionUnique scheme nodeSrc uk L).1 = true ∧
        ((removeSumTransactionUnique scheme nodeSrc uk L).2).txs.map
            (fun t => (t.uid, t.keys, t.values, t.period)) =
          (L.txs.filter (fun t => decide (¬ t.uk = some uk))).map
            (fun t => (t.uid, t.keys, t.values, t.period)) ∧
        chainInvB ((removeSumTransactionUnique scheme nodeSrc uk L).2).txs
            = true ∧
        (∀ k, valuesFor k (L.txs.filter (fun t => decide (¬ t.uk = some uk))) ≠ [] →
            bGet k (getBalance ((removeSumTransactionUnique scheme nodeSrc uk L).2)) =
              some (vecSumExt
                (valuesFor k (L.txs.filter (fun t => decide (¬ t.uk = some uk)))))) ∧
        (∀ k, valuesFor k (L.txs.filter (fun t => decide (¬ t.uk = some uk))) = [] →
            bGet k (getBalance ((removeSumTransactionUnique scheme nodeSrc uk L).2)) =
              none) ∧
        (∀ k j,
            (vecSumExt (valuesFor k
              (L.txs.filter (fun t => decide (¬ t.uk = some uk))))).getD j 0 =
            ((valuesFor k (L.txs.filter (fun t => decide (¬ t.uk = some uk)))).map
              (fun v => v.getD j 0)).sum)) := by
  constructor
  · intro hall
    unfold removeSumTransactionUnique
    by_cases h0 : L.txs = []
    · rw [if_pos h0]
    · rw [if_neg h0]
      dsimp only
      have hfilt : L.txs.filter (fun t => decide (¬ t.uk = some uk)) = L.txs := by
        rw [List.filter_eq_self]
        intro a ha
        simpa using hall a ha
      rw [hfilt, if_pos rfl]
  · rintro ⟨t0, ht0, huk0⟩
    have h0 : L.txs ≠ [] := by
      intro h
      rw [h] at ht0
      cases ht0
    have hlen : (L.txs.filter (fun t => decide (¬ t.uk = some uk))).length ≠
        L.txs.length :=
      filter_length_ne _ L.txs ⟨t0, ht0, by simp [huk0]⟩
    have hres : removeSumTransactionUnique scheme nodeSrc uk L =
        (true, rebuildL scheme nodeSrc
          { L with txs := L.txs.filter (fun t => decide (¬ t.uk = some uk)) }) := by
      unfold removeSumTransactionUnique
      rw [if_neg h0]
      dsimp only
      rw [if_neg hlen]
    rw [hres]
    dsimp only
    refine ⟨rfl, rebuildL_map_core scheme nodeSrc _, rebuildL_txs_inv scheme nodeSrc _,
      ?_, ?_, ?_⟩
    · intro k hk
      have hne : ({ L with
          txs := L.txs.filter (fun t => decide (¬ t.uk = some uk)) } : Ledger).txs ≠ [] := by
        dsimp only
        intro hnil
        rw [hnil] at hk
        simp [valuesFor] at hk
      rw [getBalance_rebuildL scheme nodeSrc _ hne, bGet_balFold, if_neg hk]
      rfl
    · intro k hk
      by_cases hrem : L.txs.filter (fun t => decide (¬ t.uk = some uk)) = []
      · have hz : getBalance (rebuildL scheme nodeSrc
            { L with txs := L.txs.filter (fun t => decide (¬ t.uk = some uk)) }) = [] := by
          apply getBalance_nil
          rw [rebuildL, if_pos hrem]
          exact hrem
        rw [hz]
        rfl
      · rw [getBalance_rebuildL scheme nodeSrc _ hrem, bGet_balFold, if_pos hk]
        rfl
    · intro k j
      exact vecSumExt_getD _ j

/-- A concrete three-entry chain: `[5]` under `"a"`, a unique entry
`[3]` under `"a"` with marker `"kk"`, then `[10]` under `"b"`. -/
def c3Ledger : Ledger :=
  (sumTransaction "p" ["b"] [10] {}
    (((sumTransactionUnique "kk" "p" ["a"] [3] {}
      ((sumTransaction "p" ["a"] [5] {} emptyLedger).2)).getD
        (0, emptyLedger)).2)).2

/-- Witness for C3: removing the middle unique entry of `c3Ledger`
returns true, the rebuilt balances are the sums of the remaining
entries' values, and the chain invariant holds again. -/
theorem claim_C3_remove_rebuild_witness :
    (∃ t ∈ c3Ledger.txs, t.uk = some "kk") ∧
    (removeSumTransactionUnique "s" "n" "kk" c3Ledger).1 = true ∧
    bGet "a" (getBalance ((removeSumTransactionUnique "s" "n" "kk" c3Ledger).2)) =
      some (vecSumExt (valuesFor "a"
        (c3Ledger.txs.filter (fun t => decide (¬ t.uk = some "kk"))))) ∧
    chainInvB ((removeSumTransactionUnique "s" "n" "kk" c3Ledger).2).txs = true :=
  have h := (claim_C3_remove_rebuild "s" "n" "kk" c3Ledger).2 (by decide)
  ⟨by decide, h.1, h.2.2.2.1 "a" (by decide), h.2.2.1⟩


/-! ## Node writes and the before/after-persist hook dispatcher
(`run_on_accept_server_once`, `run_on_after_accept_server_once`,
`dispatch_node_class_event`, `Node.set_data`, `Node.update_data`, the
`Node._data` setter, `Node._save`, `Node.create`, `Node.get_data`)

One node's persisted record is reduced to its `_data` dict (`storage`);
`cache` is `self._data_cache`.  Dict values are embedded as strings or
numbers; a handler (a matched `onAcceptServer` action method) receives
the firing payload, the prior-state snapshot (which Python passes inside
the payload as `payload["_saved_state"]`) and the node's current cache,
and returns its Python result — `some (ok, d)` for a tuple return,
`none` otherwise — together with the cache it leaves behind.  The
request-scoped `ACCEPT_GUARD` / `AFTER_ACCEPT_GUARD` sets and the number
of dispatches they admit are the request state.  Timestamps
(`_updated_at`) and the `_ui_message` attachment are not modelled; the
class name used both for stamping and for the guard key is `cls`. -/

inductive Val where
  | vStr (s : String)
  | vNat (n : Nat)
deriving DecidableEq, Repr

abbrev DataMap := List (String × Val)

def dGet (k : String) : DataMap → Option Val
  | [] => none
  | (k', v) :: rest => if k' = k then some v else dGet k rest

def dSet (k : String) (v : Val) : DataMap → DataMap
  | [] => [(k, v)]
  | (k', v') :: rest =>
      if k' = k then (k', v) :: rest else (k', v') :: dSet k v rest

def dErase (k : String) : DataMap → DataMap
  | [] => []
  | (k', v) :: rest => if k' = k then rest else (k', v) :: dErase k rest

/-- Python truthiness of an embedded dict value. -/
def pyTruthy : Val → Bool
  | .vStr s => decide (s ≠ "")
  | .vNat n => decide (n ≠ 0)

def valToIdStr : Val → String
  | .vStr s => s
  | .vNat n => toString n

/-- `data.get('_id') or fallback` as the raw-id string. -/
def rawId (d : DataMap) (fallback : String) : String :=
  match dGet "_id" d with
  | some v => if pyTruthy v then valToIdStr v else fallback
  | none => fallback

/-- One node: identity triple, the persisted record's `_data` (absent
when the id is not in storage), and the instance data cache. -/
structure NodeSt where
  cfg : String
  cls : String
  nid : String
  storage : Option DataMap
  cache : Option DataMap
deriving Repr

/-- Request-scoped state: the two hook guard sets plus dispatch
counters for the before- and after-hooks. -/
structure ReqSt where
  guard : List (String × String × String)
  aguard : List (String × String × String)
  beforeCount : Nat
  afterCount : Nat
deriving DecidableEq, Repr

/-- `_accept_guard_key`: the (config, class, id) triple. -/
def gkey (n : NodeSt) : String × String × String := (n.cfg, n.cls, n.nid)

/-- A matched handler method: (payload, saved state, cache) to
(Python return value, cache left behind). -/
abbrev Handler := DataMap → DataMap → DataMap → Option (Bool × DataMap) × DataMap

/-- `dispatch_node_class_event` over the matched action methods: runs
them in order; a tuple result with a falsy first element vetoes with the
dict payload (`{}` when absent); other results are ignored. -/
def dispatchEvent (hs : List Handler) (payload saved cache : DataMap) :
    (Bool × DataMap) × DataMap :=
  match hs with
  | [] => ((true, []), cache)
  | h :: rest =>
    let r := h payload saved cache
    match r.1 with
    | some (ok, d) =>
        if ok then dispatchEvent rest payload saved r.2
        else ((false, d), r.2)
    | none => dispatchEvent rest payload saved r.2

/-- The `_data` property getter: loads the stored payload, re-stamps
`_class` (setdefault) and normalizes `_id`. -/
def loadData (n : NodeSt) : DataMap :=
  match n.storage with
  | none => []
  | some d =>
    let d1 :=
      match dGet "_class" d with
      | some _ => d
      | none => dSet "_class" (.vStr n.cls) d
    dSet "_id" (.vStr (normalize_own_uid n.cfg n.cls (rawId d1 n.nid))) d1

/-- The node's working data: the cache when set, else the loaded payload. -/
def curCache (n : NodeSt) : DataMap :=
  match n.cache with
  | some c => c
  | none => loadData n

/-- `Node.get_data`: the persisted payload with `_id` normalized and
`_class` defaulted. -/
def getData (n : NodeSt) : DataMap :=
  match n.storage with
  | none => []
  | some d =>
    let d1 := dSet "_id" (.vStr (normalize_own_uid n.cfg n.cls (rawId d n.nid))) d
    match dGet "_class" d1 with
    | some _ => d1
    | none => dSet "_class" (.vStr n.cls) d1

def skipKey : String := "_skip_accept_handler"

/-- The guard/dispatch part of `run_on_accept_server_once` (everything
after the skip-marker branch): at most once per request per node; a veto
raises `AcceptRejected` with the handler payload. -/
def runOnAcceptG (hs : List Handler) (saved input : DataMap) (n : NodeSt)
    (rq : ReqSt) : Except DataMap Unit × NodeSt × ReqSt :=
  if gkey n ∈ rq.guard then (.ok (), n, rq)
  else
    let rq1 := { rq with guard := gkey n :: rq.guard,
                         beforeCount := rq.beforeCount + 1 }
    let r := dispatchEvent hs input saved (curCache n)
    let n1 := { n with cache := some r.2 }
    ((if r.1.1 then .ok () else .error r.1.2), n1, rq1)

/-- `run_on_after_accept_server_once`: same guard mechanics on the after
set; cannot veto and its result is ignored. -/
def runAfterG (ahs : List Handler) (saved : DataMap) (n : NodeSt)
    (rq : ReqSt) : NodeSt × ReqSt :=
  if gkey n ∈ rq.aguard then (n, rq)
  else
    let rq1 := { rq with aguard := gkey n :: rq.aguard,
                         afterCount := rq.afterCount + 1 }
    let r := dispatchEvent ahs [] saved (curCache n)
    ({ n with cache := some r.2 }, rq1)

/-- `Node._save` with the skip-marker branch of its
`run_on_accept_server_once` elided: used for the nested `node._save()`
inside that branch, where the marker was just deleted from the cache and
so cannot fire again. -/
def saveNoSkip (hs ahs : List Handler) (n : NodeSt) (rq : ReqSt) :
    Except DataMap Unit × NodeSt × ReqSt :=
  match n.storage with
  | none => (.ok (), n, rq)
  | some stored =>
    let saved := stored
    let s1 := dSet "_class" (.vStr n.cls) (curCache n)
    let s2 := dSet "_id" (.vStr (normalize_own_uid n.cfg n.cls (rawId s1 n.nid))) s1
    let n1 := { n with cache := some s2 }
    let r := runOnAcceptG hs saved [] n1 rq
    match r.1 with
    | .error e => (.error e, r.2.1, r.2.2)
    | .ok _ =>
      let n3 := { r.2.1 with storage := some (r.2.1.cache.getD s2) }
      let ra := runAfterG ahs saved n3 r.2.2
      (.ok (), ra.1, ra.2)

/-- `run_on_accept_server_once`: if the node's pending data carries the
skip marker, delete it and run `node._save()` (whose own marker check
can no longer fire); otherwise guard and dispatch. -/
def runOnAccept (hs ahs : List Handler) (saved input : DataMap)
    (n : NodeSt) (rq : ReqSt) : Except DataMap Unit × NodeSt × ReqSt :=
  let c0 := curCache n
  if (dGet skipKey c0).isSome then
    let n1 := { n with cache := some (dErase skipKey c0) }
    saveNoSkip hs ahs n1 rq
  else
    runOnAcceptG hs saved input n rq

/-- `Node._save`: stamp `_class`/`_id` into the cache, run the
before-hook, persist what the hook left in the cache, then the
after-hook. -/
def save (hs ahs : List Handler) (n : NodeSt) (rq : ReqSt) :
    Except DataMap Unit × NodeSt × ReqSt :=
  match n.storage with
  | none => (.ok (), n, rq)
  | some stored =>
    let saved := stored
    let s1 := dSet "_class" (.vStr n.cls) (curCache n)
    let s2 := dSet "_id" (.vStr (normalize_own_uid n.cfg n.cls (rawId s1 n.nid))) s1
    let n1 := { n with cache := some s2 }
    let r := runOnAccept hs ahs saved [] n1 rq
    match r.1 with
    | .error e => (.error e, r.2.1, r.2.2)
    | .ok _ =>
      let n3 := { r.2.1 with storage := some (r.2.1.cache.getD s2) }
      let ra := runAfterG ahs saved n3 r.2.2
      (.ok (), ra.1, ra.2)

/-- `Node.set_data`: one-key update over the working state, identity
stamps, before-hook, persist, after-hook. -/
def setData (hs ahs : List Handler) (k : String) (v : Val) (n : NodeSt)
    (rq : ReqSt) : Except DataMap Unit × NodeSt × ReqSt :=
  match n.storage with
  | none => (.ok (), n, rq)
  | some stored =>
    let saved := stored
    let base := n.cache.getD saved
    let ns2 := dSet "_class" (.vStr n.cls) (dSet k v base)
    let ns3 := dSet "_id" (.vStr (normalize_own_uid n.cfg n.cls n.nid)) ns2
    let n1 := { n with cache := some ns3 }
    let r := runOnAccept hs ahs saved [(k, v)] n1 rq
    match r.1 with
    | .error e => (.error e, r.2.1, r.2.2)
    | .ok _ =>
      let n3 := { r.2.1 with storage := some (r.2.1.cache.getD ns3) }
      let ra := runAfterG ahs saved n3 r.2.2
      (.ok (), ra.1, ra.2)

/-- `Node.update_data`: dict merge skipping the protected keys `_id` and
`_class`, identity stamps, before-hook, persist, after-hook. -/
def updateData (hs ahs : List Handler) (m : DataMap) (n : NodeSt)
    (rq : ReqSt) : Except DataMap Unit × NodeSt × ReqSt :=
  match n.storage with
  | none => (.ok (), n, rq)
  | some stored =>
    let saved := stored
    let base := n.cache.getD saved
    let merged := m.foldl
      (fun acc kv =>
        if kv.1 = "_id" ∨ kv.1 = "_class" then acc else dSet kv.1 kv.2 acc)
      base
    let ns2 := dSet "_class" (.vStr n.cls) merged
    let ns3 := dSet "_id" (.vStr (normalize_own_uid n.cfg n.cls n.nid)) ns2
    let n1 := { n with cache := some ns3 }
    let r := runOnAccept hs ahs saved m n1 rq
    match r.1 with
    | .error e => (.error e, r.2.1, r.2.2)
    | .ok _ =>
      let n3 := { r.2.1 with storage := some (r.2.1.cache.getD ns3) }
      let ra := runAfterG ahs saved n3 r.2.2
      (.ok (), ra.1, ra.2)

/-- The `Node._data` setter: replaces the cache with the given dict,
runs the before-hook, persists; it fires no after-hook. -/
def dataSetter (hs ahs : List Handler) (v : DataMap) (n : NodeSt)
    (rq : ReqSt) : Except DataMap Unit × NodeSt × ReqSt :=
  match n.storage with
  | none => (.ok (), n, rq)
  | some stored =>
    let saved := stored
    let n1 := { n with cache := some v }
    let r := runOnAccept hs ahs saved [] n1 rq
    match r.1 with
    | .error e => (.error e, r.2.1, r.2.2)
    | .ok _ =>
      (.ok (), { r.2.1 with storage := some (r.2.1.cache.getD v) }, r.2.2)

/-- `Node.create` after the constructor's get-or-create: merge the
initial data (skipping `_id`/`_class`), stamp, run the hooks, persist,
and drop the cache.  A falsy `initial_data` skips everything. -/
def createOp (hs ahs : List Handler) (initial : DataMap) (n : NodeSt)
    (rq : ReqSt) : Except DataMap Unit × NodeSt × ReqSt :=
  if initial = [] then (.ok (), n, rq)
  else
    match n.storage with
    | none => (.ok (), n, rq)
    | some stored =>
      let saved := stored
      let merged := initial.foldl
        (fun acc kv =>
          if kv.1 = "_id" ∨ kv.1 = "_class" then acc else dSet kv.1 kv.2 acc)
        saved
      let ns2 := dSet "_id" (.vStr (normalize_own_uid n.cfg n.cls n.nid)) merged
      let ns3 := dSet "_class" (.vStr n.cls) ns2
      let n1 := { n with cache := some ns3 }
      let r := runOnAccept hs ahs saved initial n1 rq
      match r.1 with
      | .error e => (.error e, r.2.1, r.2.2)
      | .ok _ =>
        let n3 := { r.2.1 with storage := some (r.2.1.cache.getD ns3) }
        let ra := runAfterG ahs saved n3 r.2.2
        (.ok (), { ra.1 with cache := none }, ra.2)

/-- The write paths of one node. -/
inductive WOp where
  | setD (k : String) (v : Val)
  | updD (m : DataMap)
  | setter (v : DataMap)
  | saveOp
  | createD (initial : DataMap)

def execW (hs ahs : List Handler) : WOp → NodeSt → ReqSt →
    Except DataMap Unit × NodeSt × ReqSt
  | .setD k v => setData hs ahs k v
  | .updD m => updateData hs ahs m
  | .setter v => dataSetter hs ahs v
  | .saveOp => save hs ahs
  | .createD initial => createOp hs ahs initial

def execSeq (hs ahs : List Handler) (ops : List WOp) (n : NodeSt)
    (rq : ReqSt) : NodeSt × ReqSt :=
  ops.foldl (fun st op => (execW hs ahs op st.1 st.2).2) (n, rq)


theorem splitOn_append_general (sep : Char) :
    ∀ (a b : Chars), splitOn sep (a ++ sep :: b) =
      splitOn sep a ++ splitOn sep b := by
  intro a
  induction a with
  | nil => intro b; simp [splitOn]
  | cons c cs ih =>
    intro b
    by_cases hc : c = sep
    · subst hc
      simp only [List.cons_append, splitOn, if_pos rfl, ih, List.append_eq]
      rfl
    · simp only [List.cons_append, splitOn, List.append_eq, ih, hc, if_false]
      cases hcs : splitOn sep cs with
      | nil => exact absurd hcs (splitOn_ne_nil sep cs)
      | cons p ps => simp

theorem mem_of_getLast?_eq_some {α} : ∀ {l : List α} {a : α},
    l.getLast? = some a → a ∈ l := by
  intro l
  induction l with
  | nil => intro a h; cases h
  | cons x xs ih =>
    intro a h
    cases xs with
    | nil =>
      rw [List.getLast?_singleton] at h
      cases Option.some.inj h
      exact List.mem_cons_self x []
    | cons y ys =>
      rw [List.getLast?_cons_cons] at h
      exact List.mem_cons_of_mem x (ih h)

theorem mem_splitOn_no_sep (sep : Char) :
    ∀ (s : Chars) (p : Chars), p ∈ splitOn sep s → sep ∉ p := by
  intro s
  induction s with
  | nil =>
    intro p hp
    simp only [splitOn, List.mem_singleton] at hp
    subst hp
    simp
  | cons c cs ih =>
    intro p hp
    by_cases hc : c = sep
    · subst hc
      simp only [splitOn, if_pos rfl] at hp
      rcases List.mem_cons.mp hp with h | h
      · subst h; simp
      · exact ih p h
    · simp only [splitOn, hc, if_false] at hp
      cases hcs : splitOn sep cs with
      | nil => exact absurd hcs (splitOn_ne_nil sep cs)
      | cons q qs =>
        rw [hcs] at hp
        rcases List.mem_cons.mp hp with h | h
        · subst h
          have hq : sep ∉ q := ih q (by rw [hcs]; exact List.mem_cons_self q qs)
          simp only [List.mem_cons, not_or]
          exact ⟨fun hh => hc hh.symm, hq⟩
        · exact ih p (by rw [hcs]; exact List.mem_cons_of_mem q h)

theorem last2_getLast :
    ∀ (zs : List Chars) (x y : Chars),
      (last2 x y zs).2 = ((y :: zs).getLast?).getD [] := by
  intro zs
  induction zs with
  | nil => intro x y; rfl
  | cons z zs ih =>
    intro x y
    rw [last2, ih y z, List.getLast?_cons_cons]

theorem no_sep_extract (s : Chars) : '$' ∉ extractInternalIdC s := by
  unfold extractInternalIdC parseUidAnyC
  cases h : splitOn '$' s with
  | nil => simp
  | cons p ps =>
    cases ps with
    | nil =>
      exact mem_splitOn_no_sep '$' s p (by rw [h]; exact List.mem_cons_self p [])
    | cons p2 ps2 =>
      cases ps2 with
      | nil =>
        by_cases hu : uuidLike p
        · simp only [hu, if_true]
          decide
        · simp only [hu, if_false]
          exact mem_splitOn_no_sep '$' s p2
            (by rw [h]; exact List.mem_cons_of_mem p (List.mem_cons_self p2 []))
      | cons p3 ps3 =>
        dsimp only
        rw [last2_getLast]
        have hmem : ((p3 :: ps3).getLast?).getD [] ∈ splitOn '$' s := by
          rw [h]
          cases hl : (p3 :: ps3).getLast? with
          | none => simp [List.getLast?_eq_none_iff] at hl
          | some q =>
            have hq : q ∈ p3 :: ps3 := mem_of_getLast?_eq_some hl
            simp only [Option.getD]
            exact List.mem_cons_of_mem p (List.mem_cons_of_mem p2 hq)
        exact mem_splitOn_no_sep '$' s _ hmem

theorem parse_third_getLast (s : Chars)
    (h3 : 3 ≤ (splitOn '$' s).length) :
    (parseUidAnyC s).2.2 = ((splitOn '$' s).getLast?).getD [] := by
  unfold parseUidAnyC
  cases h : splitOn '$' s with
  | nil => rw [h] at h3; simp at h3
  | cons p1 ps =>
    cases ps with
    | nil => rw [h] at h3; simp at h3
    | cons p2 ps2 =>
      cases ps2 with
      | nil => rw [h] at h3; simp at h3
      | cons p3 ps3 =>
        dsimp only
        rw [last2_getLast, List.getLast?_cons_cons, List.getLast?_cons_cons]

theorem extract_normalize (cfg cls e : Chars) (he : '$' ∉ e) :
    extractInternalIdC (cfg ++ '$' :: (cls ++ '$' :: e)) = e := by
  have h1 : splitOn '$' (cfg ++ '$' :: (cls ++ '$' :: e)) =
      (splitOn '$' cfg ++ splitOn '$' cls) ++ [e] := by
    rw [splitOn_append_general, splitOn_append_general,
      splitOn_no_sep '$' e he, List.append_assoc]
  have hlen : 3 ≤ (splitOn '$' (cfg ++ '$' :: (cls ++ '$' :: e))).length := by
    rw [h1]
    have hc1 : 0 < (splitOn '$' cfg).length :=
      List.length_pos.mpr (splitOn_ne_nil '$' cfg)
    have hc2 : 0 < (splitOn '$' cls).length :=
      List.length_pos.mpr (splitOn_ne_nil '$' cls)
    simp only [List.length_append, List.length_singleton]
    omega
  rw [extractInternalIdC, parse_third_getLast _ hlen, h1,
    List.getLast?_concat]
  rfl

theorem normalizeOwnUidC_idem (cfg cls r : Chars) :
    normalizeOwnUidC cfg cls (normalizeOwnUidC cfg cls r) =
      normalizeOwnUidC cfg cls r := by
  unfold normalizeOwnUidC
  rw [extract_normalize cfg cls _ (no_sep_extract r)]

theorem normalize_own_uid_idem (cfg cls r : String) :
    normalize_own_uid cfg cls (normalize_own_uid cfg cls r) =
      normalize_own_uid cfg cls r := by
  unfold normalize_own_uid
  rw [List.toList_asString, normalizeOwnUidC_idem]

theorem normalize_own_uid_ne_empty (cfg cls r : String) :
    normalize_own_uid cfg cls r ≠ "" := by
  unfold normalize_own_uid normalizeOwnUidC
  intro h
  rw [List.asString_eq] at h
  cases hc : cfg.toList with
  | nil => rw [hc] at h; simp at h
  | cons a as => rw [hc] at h; simp at h


theorem runAfterG_spec (ahs : List Handler) (saved : DataMap) (n : NodeSt)
    (rq : ReqSt) :
    (runAfterG ahs saved n rq).1.cfg = n.cfg ∧
    (runAfterG ahs saved n rq).1.cls = n.cls ∧
    (runAfterG ahs saved n rq).1.nid = n.nid ∧
    (runAfterG ahs saved n rq).1.storage = n.storage ∧
    (runAfterG ahs saved n rq).2.guard = rq.guard ∧
    (runAfterG ahs saved n rq).2.beforeCount = rq.beforeCount := by
  unfold runAfterG
  by_cases h : gkey n ∈ rq.aguard
  · rw [if_pos h]
    exact ⟨rfl, rfl, rfl, rfl, rfl, rfl⟩
  · rw [if_neg h]
    exact ⟨rfl, rfl, rfl, rfl, rfl, rfl⟩

theorem saveNoSkip_spec (hs ahs : List Handler) (n : NodeSt) (rq : ReqSt) :
    (saveNoSkip hs ahs n rq).2.1.cfg = n.cfg ∧
    (saveNoSkip hs ahs n rq).2.1.cls = n.cls ∧
    (saveNoSkip hs ahs n rq).2.1.nid = n.nid ∧
    (∀ e, (saveNoSkip hs ahs n rq).1 = .error e →
        (saveNoSkip hs ahs n rq).2.1.storage = n.storage) ∧
    (gkey n ∈ rq.guard →
        (saveNoSkip hs ahs n rq).2.2.guard = rq.guard ∧
        (saveNoSkip hs ahs n rq).2.2.beforeCount = rq.beforeCount) ∧
    (gkey n ∉ rq.guard →
        ((saveNoSkip hs ahs n rq).2.2.guard = rq.guard ∧
          (saveNoSkip hs ahs n rq).2.2.beforeCount = rq.beforeCount) ∨
        ((saveNoSkip hs ahs n rq).2.2.guard = gkey n :: rq.guard ∧
          (saveNoSkip hs ahs n rq).2.2.beforeCount = rq.beforeCount + 1)) ∧
    (gkey n ∉ rq.guard → n.storage.isSome →
        (saveNoSkip hs ahs n rq).2.2.guard = gkey n :: rq.guard ∧
        (saveNoSkip hs ahs n rq).2.2.beforeCount = rq.beforeCount + 1) := by
  obtain ⟨cfg, cls, nid, sto, ca⟩ := n
  unfold saveNoSkip
  cases sto with
  | none =>
    dsimp only
    exact ⟨rfl, rfl, rfl, fun e he => rfl, fun _ => ⟨rfl, rfl⟩,
      fun _ => .inl ⟨rfl, rfl⟩, fun _ hsome => absurd hsome (by simp)⟩
  | some stored =>
    dsimp only
    unfold runOnAcceptG
    dsimp only [gkey]
    by_cases hg : (cfg, cls, nid) ∈ rq.guard
    · rw [if_pos hg]
      dsimp only
      exact ⟨(runAfterG_spec _ _ _ _).1, (runAfterG_spec _ _ _ _).2.1,
        (runAfterG_spec _ _ _ _).2.2.1, fun e he => (by cases he),
        fun _ => ⟨(runAfterG_spec _ _ _ _).2.2.2.2.1,
          (runAfterG_spec _ _ _ _).2.2.2.2.2⟩,
        fun hng => absurd hg hng, fun hng _ => absurd hg hng⟩
    · rw [if_neg hg]
      dsimp only
      split
      · -- dispatch vetoed: error returned before the persist
        exact ⟨rfl, rfl, rfl, fun e he => rfl,
          fun hg2 => absurd hg2 hg, fun _ => .inr ⟨rfl, rfl⟩,
          fun _ _ => ⟨rfl, rfl⟩⟩
      · -- dispatch passed: persist and run the after-hook
        exact ⟨(runAfterG_spec _ _ _ _).1, (runAfterG_spec _ _ _ _).2.1,
          (runAfterG_spec _ _ _ _).2.2.1, fun e he => (by cases he),
          fun hg2 => absurd hg2 hg,
          fun _ => .inr ⟨(runAfterG_spec _ _ _ _).2.2.2.2.1,
            (runAfterG_spec _ _ _ _).2.2.2.2.2⟩,
          fun _ _ => ⟨(runAfterG_spec _ _ _ _).2.2.2.2.1,
            (runAfterG_spec _ _ _ _).2.2.2.2.2⟩⟩

theorem runOnAccept_spec (hs ahs : List Handler) (saved input : DataMap)
    (n : NodeSt) (rq : ReqSt) :
    (runOnAccept hs ahs saved input n rq).2.1.cfg = n.cfg ∧
    (runOnAccept hs ahs saved input n rq).2.1.cls = n.cls ∧
    (runOnAccept hs ahs saved input n rq).2.1.nid = n.nid ∧
    (∀ e, (runOnAccept hs ahs saved input n rq).1 = .error e →
        (runOnAccept hs ahs saved input n rq).2.1.storage = n.storage) ∧
    (gkey n ∈ rq.guard →
        (runOnAccept hs ahs saved input n rq).2.2.guard = rq.guard ∧
        (runOnAccept hs ahs saved input n rq).2.2.beforeCount = rq.beforeCount) ∧
    (gkey n ∉ rq.guard →
        ((runOnAccept hs ahs saved input n rq).2.2.guard = rq.guard ∧
          (runOnAccept hs ahs saved input n rq).2.2.beforeCount = rq.beforeCount) ∨
        ((runOnAccept hs ahs saved input n rq).2.2.guard = gkey n :: rq.guard ∧
          (runOnAccept hs ahs saved input n rq).2.2.beforeCount = rq.beforeCount + 1)) ∧
    (gkey n ∉ rq.guard → n.storage.isSome →
        (runOnAccept hs ahs saved input n rq).2.2.guard = gkey n :: rq.guard ∧
        (runOnAccept hs ahs saved input n rq).2.2.beforeCount = rq.beforeCount + 1) := by
  unfold runOnAccept
  by_cases hm : (dGet skipKey (curCache n)).isSome
  · rw [if_pos hm]
    dsimp only
    refine ⟨?_, ?_, ?_, ?_, ?_, ?_, ?_⟩
    · exact (saveNoSkip_spec hs ahs
        { n with cache := some (dErase skipKey (curCache n)) } rq).1
    · exact (saveNoSkip_spec hs ahs
        { n with cache := some (dErase skipKey (curCache n)) } rq).2.1
    · exact (saveNoSkip_spec hs ahs
        { n with cache := some (dErase skipKey (curCache n)) } rq).2.2.1
    · exact (saveNoSkip_spec hs ahs
        { n with cache := some (dErase skipKey (curCache n)) } rq).2.2.2.1
    · intro h
      exact (saveNoSkip_spec hs ahs
        { n with cache := some (dErase skipKey (curCache n)) } rq).2.2.2.2.1 (by exact h)
    · intro h
      exact (saveNoSkip_spec hs ahs
        { n with cache := some (dErase skipKey (curCache n)) } rq).2.2.2.2.2.1 (by exact h)
    · intro h hsome
      exact (saveNoSkip_spec hs ahs
        { n with cache := some (dErase skipKey (curCache n)) } rq).2.2.2.2.2.2 h hsome
  · rw [if_neg hm]
    unfold runOnAcceptG
    by_cases hg : gkey n ∈ rq.guard
    · rw [if_pos hg]
      exact ⟨rfl, rfl, rfl, fun e he => rfl, fun _ => ⟨rfl, rfl⟩,
        fun hng => absurd hg hng, fun hng _ => absurd hg hng⟩
    · rw [if_neg hg]
      exact ⟨rfl, rfl, rfl, fun e he => rfl,
        fun hg2 => absurd hg2 hg,
        fun _ => .inr ⟨rfl, rfl⟩,
        fun _ _ => ⟨rfl, rfl⟩⟩

set_option maxHeartbeats 2000000 in
theorem execW_spec (hs ahs : List Handler) (op : WOp) (n : NodeSt) (rq : ReqSt) :
    (execW hs ahs op n rq).2.1.cfg = n.cfg ∧
    (execW hs ahs op n rq).2.1.cls = n.cls ∧
    (execW hs ahs op n rq).2.1.nid = n.nid ∧
    (∀ e, (execW hs ahs op n rq).1 = .error e →
        (execW hs ahs op n rq).2.1.storage = n.storage) ∧
    (gkey n ∈ rq.guard →
        (execW hs ahs op n rq).2.2.guard = rq.guard ∧
        (execW hs ahs op n rq).2.2.beforeCount = rq.beforeCount) ∧
    (gkey n ∉ rq.guard →
        ((execW hs ahs op n rq).2.2.guard = rq.guard ∧
          (execW hs ahs op n rq).2.2.beforeCount = rq.beforeCount) ∨
        ((execW hs ahs op n rq).2.2.guard = gkey n :: rq.guard ∧
          (execW hs ahs op n rq).2.2.beforeCount = rq.beforeCount + 1)) := by
  obtain ⟨cfg, cls, nid, sto, ca⟩ := n
  cases op with
  | setD k v =>
    simp only [execW]
    unfold setData
    cases sto with
    | none =>
      exact ⟨rfl, rfl, rfl, fun e he => rfl, fun _ => ⟨rfl, rfl⟩,
        fun _ => .inl ⟨rfl, rfl⟩⟩
    | some stored =>
      dsimp only
      split
      · rename_i e heq
        exact ⟨(runOnAccept_spec _ _ _ _ _ _).1,
          (runOnAccept_spec _ _ _ _ _ _).2.1,
          (runOnAccept_spec _ _ _ _ _ _).2.2.1,
          fun e2 he2 => (runOnAccept_spec _ _ _ _ _ _).2.2.2.1 e heq,
          fun h => (runOnAccept_spec _ _ _ _ _ _).2.2.2.2.1 (by exact h),
          fun h => (runOnAccept_spec _ _ _ _ _ _).2.2.2.2.2.1 (by exact h)⟩
      · refine ⟨?_, ?_, ?_, ?_, ?_, ?_⟩
        · exact ((runAfterG_spec _ _ _ _).1).trans
            ((runOnAccept_spec _ _ _ _ _ _).1)
        · exact ((runAfterG_spec _ _ _ _).2.1).trans
            ((runOnAccept_spec _ _ _ _ _ _).2.1)
        · exact ((runAfterG_spec _ _ _ _).2.2.1).trans
            ((runOnAccept_spec _ _ _ _ _ _).2.2.1)
        · intro e2 he2
          cases he2
        · intro h
          exact ⟨((runAfterG_spec _ _ _ _).2.2.2.2.1).trans
              (((runOnAccept_spec _ _ _ _ _ _).2.2.2.2.1 (by exact h)).1),
            ((runAfterG_spec _ _ _ _).2.2.2.2.2).trans
              (((runOnAccept_spec _ _ _ _ _ _).2.2.2.2.1 (by exact h)).2)⟩
        · intro h
          exact .inr ⟨((runAfterG_spec _ _ _ _).2.2.2.2.1).trans
              (((runOnAccept_spec _ _ _ _ _ _).2.2.2.2.2.2 (by exact h)
                (by exact rfl)).1),
            ((runAfterG_spec _ _ _ _).2.2.2.2.2).trans
              (((runOnAccept_spec _ _ _ _ _ _).2.2.2.2.2.2 (by exact h)
                (by exact rfl)).2)⟩
  | updD m =>
    simp only [execW]
    unfold updateData
    cases sto with
    | none =>
      exact ⟨rfl, rfl, rfl, fun e he => rfl, fun _ => ⟨rfl, rfl⟩,
        fun _ => .inl ⟨rfl, rfl⟩⟩
    | some stored =>
      dsimp only
      split
      · rename_i e heq
        exact ⟨(runOnAccept_spec _ _ _ _ _ _).1,
          (runOnAccept_spec _ _ _ _ _ _).2.1,
          (runOnAccept_spec _ _ _ _ _ _).2.2.1,
          fun e2 he2 => (runOnAccept_spec _ _ _ _ _ _).2.2.2.1 e heq,
          fun h => (runOnAccept_spec _ _ _ _ _ _).2.2.2.2.1 (by exact h),
          fun h => (runOnAccept_spec _ _ _ _ _ _).2.2.2.2.2.1 (by exact h)⟩
      · refine ⟨?_, ?_, ?_, ?_, ?_, ?_⟩
        · exact ((runAfterG_spec _ _ _ _).1).trans
            ((runOnAccept_spec _ _ _ _ _ _).1)
        · exact ((runAfterG_spec _ _ _ _).2.1).trans
            ((runOnAccept_spec _ _ _ _ _ _).2.1)
        · exact ((runAfterG_spec _ _ _ _).2.2.1).trans
            ((runOnAccept_spec _ _ _ _ _ _).2.2.1)
        · intro e2 he2
          cases he2
        · intro h
          exact ⟨((runAfterG_spec _ _ _ _).2.2.2.2.1).trans
              (((runOnAccept_spec _ _ _ _ _ _).2.2.2.2.1 (by exact h)).1),
            ((runAfterG_spec _ _ _ _).2.2.2.2.2).trans
              (((runOnAccept_spec _ _ _ _ _ _).2.2.2.2.1 (by exact h)).2)⟩
        · intro h
          exact .inr ⟨((runAfterG_spec _ _ _ _).2.2.2.2.1).trans
              (((runOnAccept_spec _ _ _ _ _ _).2.2.2.2.2.2 (by exact h)
                (by exact rfl)).1),
            ((runAfterG_spec _ _ _ _).2.2.2.2.2).trans
              (((runOnAccept_spec _ _ _ _ _ _).2.2.2.2.2.2 (by exact h)
                (by exact rfl)).2)⟩
  | setter v =>
    simp only [execW]
    unfold dataSetter
    cases sto with
    | none =>
      exact ⟨rfl, rfl, rfl, fun e he => rfl, fun _ => ⟨rfl, rfl⟩,
        fun _ => .inl ⟨rfl, rfl⟩⟩
    | some stored =>
      dsimp only
      split
      · rename_i e heq
        exact ⟨(runOnAccept_spec _ _ _ _ _ _).1,
          (runOnAccept_spec _ _ _ _ _ _).2.1,
          (runOnAccept_spec _ _ _ _ _ _).2.2.1,
          fun e2 he2 => (runOnAccept_spec _ _ _ _ _ _).2.2.2.1 e heq,
          fun h => (runOnAccept_spec _ _ _ _ _ _).2.2.2.2.1 (by exact h),
          fun h => (runOnAccept_spec _ _ _ _ _ _).2.2.2.2.2.1 (by exact h)⟩
      · refine ⟨?_, ?_, ?_, ?_, ?_, ?_⟩
        · exact (runOnAccept_spec _ _ _ _ _ _).1
        · exact (runOnAccept_spec _ _ _ _ _ _).2.1
        · exact (runOnAccept_spec _ _ _ _ _ _).2.2.1
        · intro e2 he2
          cases he2
        · intro h
          exact (runOnAccept_spec _ _ _ _ _ _).2.2.2.2.1 (by exact h)
        · intro h
          exact (runOnAccept_spec _ _ _ _ _ _).2.2.2.2.2.1 (by exact h)
  | saveOp =>
    simp only [execW]
    unfold save
    cases sto with
    | none =>
      exact ⟨rfl, rfl, rfl, fun e he => rfl, fun _ => ⟨rfl, rfl⟩,
        fun _ => .inl ⟨rfl, rfl⟩⟩
    | some stored =>
      dsimp only
      split
      · rename_i e heq
        exact ⟨(runOnAccept_spec _ _ _ _ _ _).1,
          (runOnAccept_spec _ _ _ _ _ _).2.1,
          (runOnAccept_spec _ _ _ _ _ _).2.2.1,
          fun e2 he2 => (runOnAccept_spec _ _ _ _ _ _).2.2.2.1 e heq,
          fun h => (runOnAccept_spec _ _ _ _ _ _).2.2.2.2.1 (by exact h),
          fun h => (runOnAccept_spec _ _ _ _ _ _).2.2.2.2.2.1 (by exact h)⟩
      · refine ⟨?_, ?_, ?_, ?_, ?_, ?_⟩
        · exact ((runAfterG_spec _ _ _ _).1).trans
            ((runOnAccept_spec _ _ _ _ _ _).1)
        · exact ((runAfterG_spec _ _ _ _).2.1).trans
            ((runOnAccept_spec _ _ _ _ _ _).2.1)
        · exact ((runAfterG_spec _ _ _ _).2.2.1).trans
            ((runOnAccept_spec _ _ _ _ _ _).2.2.1)
        · intro e2 he2
          cases he2
        · intro h
          exact ⟨((runAfterG_spec _ _ _ _).2.2.2.2.1).trans
              (((runOnAccept_spec _ _ _ _ _ _).2.2.2.2.1 (by exact h)).1),
            ((runAfterG_spec _ _ _ _).2.2.2.2.2).trans
              (((runOnAccept_spec _ _ _ _ _ _).2.2.2.2.1 (by exact h)).2)⟩
        · intro h
          exact .inr ⟨((runAfterG_spec _ _ _ _).2.2.2.2.1).trans
              (((runOnAccept_spec _ _ _ _ _ _).2.2.2.2.2.2 (by exact h)
                (by exact rfl)).1),
            ((runAfterG_spec _ _ _ _).2.2.2.2.2).trans
              (((runOnAccept_spec _ _ _ _ _ _).2.2.2.2.2.2 (by exact h)
                (by exact rfl)).2)⟩
  | createD initial =>
    simp only [execW]
    unfold createOp
    by_cases hinit : initial = []
    · rw [if_pos hinit]
      exact ⟨rfl, rfl, rfl, fun e he => rfl, fun _ => ⟨rfl, rfl⟩,
        fun _ => .inl ⟨rfl, rfl⟩⟩
    · rw [if_neg hinit]
      cases sto with
      | none =>
        exact ⟨rfl, rfl, rfl, fun e he => rfl, fun _ => ⟨rfl, rfl⟩,
          fun _ => .inl ⟨rfl, rfl⟩⟩
      | some stored =>
        dsimp only
        split
        · rename_i e heq
          exact ⟨(runOnAccept_spec _ _ _ _ _ _).1,
            (runOnAccept_spec _ _ _ _ _ _).2.1,
            (runOnAccept_spec _ _ _ _ _ _).2.2.1,
            fun e2 he2 => (runOnAccept_spec _ _ _ _ _ _).2.2.2.1 e heq,
            fun h => (runOnAccept_spec _ _ _ _ _ _).2.2.2.2.1 (by exact h),
            fun h => (runOnAccept_spec _ _ _ _ _ _).2.2.2.2.2.1 (by exact h)⟩
        · refine ⟨?_, ?_, ?_, ?_, ?_, ?_⟩
          · exact ((runAfterG_spec _ _ _ _).1).trans
              ((runOnAccept_spec _ _ _ _ _ _).1)
          · exact ((runAfterG_spec _ _ _ _).2.1).trans
              ((runOnAccept_spec _ _ _ _ _ _).2.1)
          · exact ((runAfterG_spec _ _ _ _).2.2.1).trans
              ((runOnAccept_spec _ _ _ _ _ _).2.2.1)
          · intro e2 he2
            cases he2
          · intro h
            exact ⟨((runAfterG_spec _ _ _ _).2.2.2.2.1).trans
                (((runOnAccept_spec _ _ _ _ _ _).2.2.2.2.1 (by exact h)).1),
              ((runAfterG_spec _ _ _ _).2.2.2.2.2).trans
                (((runOnAccept_spec _ _ _ _ _ _).2.2.2.2.1 (by exact h)).2)⟩
          · intro h
            exact .inr ⟨((runAfterG_spec _ _ _ _).2.2.2.2.1).trans
                (((runOnAccept_spec _ _ _ _ _ _).2.2.2.2.2.2 (by exact h)
                  (by exact rfl)).1),
              ((runAfterG_spec _ _ _ _).2.2.2.2.2).trans
                (((runOnAccept_spec _ _ _ _ _ _).2.2.2.2.2.2 (by exact h)
                  (by exact rfl)).2)⟩


set_option maxHeartbeats 2000000 in
theorem save_spec_plus (hs ahs : List Handler) (n : NodeSt) (rq : ReqSt) :
    (gkey n ∉ rq.guard → n.storage.isSome →
      (save hs ahs n rq).2.2.guard = gkey n :: rq.guard ∧
      (save hs ahs n rq).2.2.beforeCount = rq.beforeCount + 1) ∧
    (n.storage.isSome → (save hs ahs n rq).2.1.storage.isSome) := by
  obtain ⟨cfg, cls, nid, sto, ca⟩ := n
  unfold save
  cases sto with
  | none =>
    exact ⟨fun _ hsome => absurd hsome (by simp), fun hsome => hsome⟩
  | some stored =>
    dsimp only
    split
    · rename_i e heq
      constructor
      · intro h _
        exact (runOnAccept_spec _ _ _ _ _ _).2.2.2.2.2.2 (by exact h)
          (by exact rfl)
      · intro _
        rw [(runOnAccept_spec _ _ _ _ _ _).2.2.2.1 e heq]
        rfl
    · constructor
      · intro h _
        exact ⟨((runAfterG_spec _ _ _ _).2.2.2.2.1).trans
            (((runOnAccept_spec _ _ _ _ _ _).2.2.2.2.2.2 (by exact h)
              (by exact rfl)).1),
          ((runAfterG_spec _ _ _ _).2.2.2.2.2).trans
            (((runOnAccept_spec _ _ _ _ _ _).2.2.2.2.2.2 (by exact h)
              (by exact rfl)).2)⟩
      · intro _
        rw [(runAfterG_spec _ _ _ _).2.2.2.1]
        rfl

theorem execW_gkey (hs ahs : List Handler) (op : WOp) (n : NodeSt)
    (rq : ReqSt) : gkey (execW hs ahs op n rq).2.1 = gkey n := by
  unfold gkey
  rw [(execW_spec hs ahs op n rq).1, (execW_spec hs ahs op n rq).2.1,
    (execW_spec hs ahs op n rq).2.2.1]

theorem execSeq_count_le_one (hs ahs : List Handler) :
    ∀ (ops : List WOp) (n : NodeSt) (rq : ReqSt) (key : String × String × String),
      gkey n = key →
      rq.beforeCount ≤ 1 → (key ∉ rq.guard → rq.beforeCount = 0) →
      (execSeq hs ahs ops n rq).2.beforeCount ≤ 1 := by
  intro ops
  induction ops with
  | nil => intro n rq key _ h1 _; exact h1
  | cons op rest ih =>
    intro n rq key hkey h1 h2
    show (execSeq hs ahs rest (execW hs ahs op n rq).2.1
      (execW hs ahs op n rq).2.2).2.beforeCount ≤ 1
    have hspec := execW_spec hs ahs op n rq
    have hgk : gkey (execW hs ahs op n rq).2.1 = key :=
      (execW_gkey hs ahs op n rq).trans hkey
    by_cases hg : gkey n ∈ rq.guard
    · have h5 := hspec.2.2.2.2.1 hg
      apply ih _ _ key hgk
      · rw [h5.2]; exact h1
      · intro hnot
        rw [h5.2]
        rw [h5.1] at hnot
        rw [hkey] at hg
        exact absurd hg hnot
    · have h0 : rq.beforeCount = 0 := h2 (by rw [← hkey]; exact hg)
      rcases hspec.2.2.2.2.2 hg with h6 | h6
      · apply ih _ _ key hgk
        · rw [h6.2]; exact h1
        · intro _
          rw [h6.2]
          exact h0
      · apply ih _ _ key hgk
        · rw [h6.2, h0]
        · intro hnot
          rw [h6.1, hkey] at hnot
          exact absurd (List.mem_cons_self key _) hnot

/-- C6: within one request-scoped runtime context, the before-persist
hook handlers are dispatched at most once per (config uid, class name,
node id) no matter which write paths run on that node; in particular
two nested saves on one node within a single request (fresh guard,
record present) dispatch the before-hook exactly once. -/
theorem claim_C6_hook_once (hs ahs : List Handler) (ops : List WOp)
    (n : NodeSt) (rq : ReqSt) (h0 : rq.beforeCount = 0) :
    (execSeq hs ahs ops n rq).2.beforeCount ≤ 1 ∧
    (gkey n ∉ rq.guard → n.storage.isSome →
      (execSeq hs ahs [WOp.saveOp, WOp.saveOp] n rq).2.beforeCount = 1) := by
  constructor
  · exact execSeq_count_le_one hs ahs ops n rq (gkey n) rfl
      (by rw [h0]; exact Nat.zero_le 1) (fun _ => h0)
  · intro hg hsome
    show (execW hs ahs .saveOp (execW hs ahs .saveOp n rq).2.1
        (execW hs ahs .saveOp n rq).2.2).2.2.beforeCount = 1
    have hp1 : (execW hs ahs .saveOp n rq).2.2.guard = gkey n :: rq.guard ∧
        (execW hs ahs .saveOp n rq).2.2.beforeCount = rq.beforeCount + 1 := by
      simp only [execW]
      exact (save_spec_plus hs ahs n rq).1 hg hsome
    have hmem : gkey (execW hs ahs .saveOp n rq).2.1 ∈
        (execW hs ahs .saveOp n rq).2.2.guard := by
      rw [execW_gkey, hp1.1]
      exact List.mem_cons_self _ _
    have h5 := (execW_spec hs ahs .saveOp (execW hs ahs .saveOp n rq).2.1
      (execW hs ahs .saveOp n rq).2.2).2.2.2.2.1 hmem
    rw [h5.2, hp1.2, h0]

/-- Witness for C6: a concrete node with one stored key, empty guards;
a one-op sequence dispatches at most once and two saves dispatch
exactly once. -/
theorem claim_C6_hook_once_witness :
    ((0 : Nat) = 0 ∧
      gkey ⟨"k", "C", "i", some [("a", Val.vNat 1)], none⟩ ∉
        ([] : List (String × String × String)) ∧
      (some [("a", Val.vNat 1)] : Option DataMap).isSome) ∧
    (execSeq [] [] [WOp.setD "b" (Val.vNat 2)]
        ⟨"k", "C", "i", some [("a", Val.vNat 1)], none⟩
        ⟨[], [], 0, 0⟩).2.beforeCount ≤ 1 ∧
    (execSeq [] [] [WOp.saveOp, WOp.saveOp]
        ⟨"k", "C", "i", some [("a", Val.vNat 1)], none⟩
        ⟨[], [], 0, 0⟩).2.beforeCount = 1 := by
  have h := claim_C6_hook_once [] [] [WOp.setD "b" (Val.vNat 2)]
    ⟨"k", "C", "i", some [("a", Val.vNat 1)], none⟩ ⟨[], [], 0, 0⟩ rfl
  exact ⟨⟨rfl, by decide, rfl⟩, h.1, h.2 (by decide) rfl⟩


theorem getData_congr (a b : NodeSt) (h1 : a.cfg = b.cfg) (h2 : a.cls = b.cls)
    (h3 : a.nid = b.nid) (h4 : a.storage = b.storage) :
    getData a = getData b := by
  obtain ⟨c1, c2, c3, s1, k1⟩ := a
  obtain ⟨d1, d2, d3, s2, k2⟩ := b
  dsimp only at h1 h2 h3 h4
  subst h1
  subst h2
  subst h3
  subst h4
  rfl

theorem runOnAcceptG_veto (hs : List Handler) (saved input : DataMap)
    (n : NodeSt) (rq : ReqSt) (p : DataMap)
    (hv : ∀ payload saved2 cache,
      (dispatchEvent hs payload saved2 cache).1 = (false, p))
    (hg : gkey n ∉ rq.guard) :
    (runOnAcceptG hs saved input n rq).1 = .error p := by
  unfold runOnAcceptG
  rw [if_neg hg]
  dsimp only
  rw [hv input saved (curCache n)]
  rfl

theorem runOnAccept_veto (hs ahs : List Handler) (saved input : DataMap)
    (n : NodeSt) (rq : ReqSt) (p : DataMap)
    (hv : ∀ payload saved2 cache,
      (dispatchEvent hs payload saved2 cache).1 = (false, p))
    (hg : gkey n ∉ rq.guard) (hsome : n.storage.isSome) :
    (runOnAccept hs ahs saved input n rq).1 = .error p := by
  obtain ⟨cfg, cls, nid, sto, ca⟩ := n
  unfold runOnAccept
  by_cases hm : (dGet skipKey (curCache ⟨cfg, cls, nid, sto, ca⟩)).isSome
  · rw [if_pos hm]
    unfold saveNoSkip
    cases sto with
    | none => exact absurd hsome (by simp)
    | some stored =>
      dsimp only
      rw [runOnAcceptG_veto hs stored [] _ rq p hv (by exact hg)]
  · rw [if_neg hm]
    exact runOnAcceptG_veto hs saved input _ rq p hv hg

/-- C5: before-persist hook veto is atomic.  For every write through
`set_data`, `update_data`, the `_data` setter, `_save` (and `create`):
whenever the write raises the Rejected condition, the persisted record
as observed by `get_data()` is unchanged from its pre-write state; and
whenever the matched handlers veto with payload `p` (a tuple result
with a falsy first element), a write on a present record with a clear
guard raises Rejected carrying exactly `p`. -/
theorem claim_C5_veto_atomic (hs ahs : List Handler) (op : WOp) (n : NodeSt)
    (rq : ReqSt) :
    (∀ p n2 rq2, execW hs ahs op n rq = (.error p, n2, rq2) →
        getData n2 = getData n) ∧
    (∀ p : DataMap,
      (∀ payload saved cache,
        (dispatchEvent hs payload saved cache).1 = (false, p)) →
      gkey n ∉ rq.guard → n.storage.isSome →
      (match op with | WOp.createD initial => initial ≠ [] | _ => True) →
      (execW hs ahs op n rq).1 = .error p) := by
  constructor
  · intro p n2 rq2 heq
    have h1 : (execW hs ahs op n rq).1 = .error p := by rw [heq]
    have h2 : (execW hs ahs op n rq).2.1 = n2 := by rw [heq]
    have hspec := execW_spec hs ahs op n rq
    rw [← h2]
    exact getData_congr _ _ hspec.1 hspec.2.1 hspec.2.2.1
      (hspec.2.2.2.1 p h1)
  · intro p hv hg hsome hw
    obtain ⟨cfg, cls, nid, sto, ca⟩ := n
    cases sto with
    | none => exact absurd hsome (by simp)
    | some stored =>
      cases op with
      | setD k v =>
        simp only [execW]
        unfold setData
        dsimp only
        rw [runOnAccept_veto hs ahs stored [(k, v)] _ rq p hv (by exact hg)
          (by exact rfl)]
      | updD m =>
        simp only [execW]
        unfold updateData
        dsimp only
        rw [runOnAccept_veto hs ahs stored m _ rq p hv (by exact hg)
          (by exact rfl)]
      | setter v =>
        simp only [execW]
        unfold dataSetter
        dsimp only
        rw [runOnAccept_veto hs ahs stored [] _ rq p hv (by exact hg)
          (by exact rfl)]
      | saveOp =>
        simp only [execW]
        unfold save
        dsimp only
        rw [runOnAccept_veto hs ahs stored [] _ rq p hv (by exact hg)
          (by exact rfl)]
      | createD initial =>
        simp only [execW]
        unfold createOp
        rw [if_neg (by exact hw)]
        dsimp only
        rw [runOnAccept_veto hs ahs stored initial _ rq p hv (by exact hg)
          (by exact rfl)]

/-- Witness for C5: a single handler that always vetoes with payload
`[("error", "x")]`; `set_data` raises Rejected with that payload and
`get_data` is unchanged. -/
theorem claim_C5_veto_atomic_witness :
    ((∀ payload saved cache,
        (dispatchEvent [fun _ _ c => (some (false, [("error", Val.vStr "x")]), c)]
          payload saved cache).1 = (false, [("error", Val.vStr "x")])) ∧
      gkey ⟨"k", "C", "i", some [("a", Val.vNat 1)], none⟩ ∉
        ([] : List (String × String × String)) ∧
      (some [("a", Val.vNat 1)] : Option DataMap).isSome) ∧
    (execW [fun _ _ c => (some (false, [("error", Val.vStr "x")]), c)] []
        (WOp.setD "b" (Val.vNat 2))
        ⟨"k", "C", "i", some [("a", Val.vNat 1)], none⟩ ⟨[], [], 0, 0⟩).1 =
      .error [("error", Val.vStr "x")] ∧
    getData (execW [fun _ _ c => (some (false, [("error", Val.vStr "x")]), c)] []
        (WOp.setD "b" (Val.vNat 2))
        ⟨"k", "C", "i", some [("a", Val.vNat 1)], none⟩ ⟨[], [], 0, 0⟩).2.1 =
      getData ⟨"k", "C", "i", some [("a", Val.vNat 1)], none⟩ := by
  have hv : ∀ payload saved cache,
      (dispatchEvent [fun _ _ c => (some (false, [("error", Val.vStr "x")]), c)]
        payload saved cache).1 = (false, [("error", Val.vStr "x")]) :=
    fun _ _ _ => rfl
  have h := claim_C5_veto_atomic
    [fun _ _ c => (some (false, [("error", Val.vStr "x")]), c)] []
    (WOp.setD "b" (Val.vNat 2))
    ⟨"k", "C", "i", some [("a", Val.vNat 1)], none⟩ ⟨[], [], 0, 0⟩
  exact ⟨⟨hv, by decide, rfl⟩, h.2 _ hv (by decide) rfl trivial,
    h.1 _ _ _ rfl⟩

/-- C7 (divergence witness): when a node's pending data contains the
skip marker `_skip_accept_handler` and a write is persisted in a fresh
request, the marker is removed from the persisted data, but the
before-persist hook IS dispatched (once): the skip branch of
`run_on_accept_server_once` calls `node._save()`, which re-enters the
guard/dispatch path now that the marker is gone.  The claim's "the hook
is not invoked for that one write" does not hold on the code. -/
theorem claim_C7_skip_marker_fires_hook :
    (save [fun _ _ c => (some (true, []), c)] []
        ⟨"k", "C", "i", some [(skipKey, Val.vNat 1), ("x", Val.vNat 7)], none⟩
        ⟨[], [], 0, 0⟩).2.2.beforeCount = 1 ∧
    (save [fun _ _ c => (some (true, []), c)] []
        ⟨"k", "C", "i", some [(skipKey, Val.vNat 1), ("x", Val.vNat 7)], none⟩
        ⟨[], [], 0, 0⟩).2.1.storage.map (dGet skipKey) = some none ∧
    (save [fun _ _ c => (some (true, []), c)] []
        ⟨"k", "C", "i", some [(skipKey, Val.vNat 1), ("x", Val.vNat 7)], none⟩
        ⟨[], [], 0, 0⟩).1 = .ok () :=
  ⟨rfl, rfl, rfl⟩

/-- C9 counterexample: with the skip marker present, the nested save
inside the skip branch persists, runs the after-persist hook, and then
the outer write persists the cache again — so an after-persist handler
that mutates `_id` reaches the stored record even though no
before-persist handler touches the identity keys.  The persisted `_id`
is `"evil"`, not the normalized composite uid. -/
theorem claim_C9_counterexample :
    (setData [] [fun _ _ c => (none, dSet "_id" (Val.vStr "evil") c)]
        "y" (Val.vNat 2)
        ⟨"k", "C", "i", some [(skipKey, Val.vNat 1), ("a", Val.vNat 1)], none⟩
        ⟨[], [], 0, 0⟩).1 = .ok () ∧
    (setData [] [fun _ _ c => (none, dSet "_id" (Val.vStr "evil") c)]
        "y" (Val.vNat 2)
        ⟨"k", "C", "i", some [(skipKey, Val.vNat 1), ("a", Val.vNat 1)], none⟩
        ⟨[], [], 0, 0⟩).2.1.storage.map (dGet "_id") =
      some (some (Val.vStr "evil")) ∧
    Val.vStr "evil" ≠ Val.vStr (normalize_own_uid "k" "C" "i") :=
  ⟨rfl, rfl, by decide⟩


theorem dGet_dSet_self (k : String) (v : Val) (d : DataMap) :
    dGet k (dSet k v d) = some v := by
  induction d with
  | nil => simp [dGet, dSet]
  | cons hd rest ih =>
    obtain ⟨k', v'⟩ := hd
    by_cases h : k' = k
    · simp [dGet, dSet, h]
    · simp [dGet, dSet, h, ih]

theorem dGet_dSet_other (k k' : String) (v : Val) (d : DataMap)
    (h : k' ≠ k) : dGet k (dSet k' v d) = dGet k d := by
  induction d with
  | nil => simp [dGet, dSet, h]
  | cons hd rest ih =>
    obtain ⟨k0, v0⟩ := hd
    by_cases h0 : k0 = k'
    · subst h0
      simp [dGet, dSet, h]
    · simp only [dSet, if_neg h0, dGet]
      by_cases h1 : k0 = k
      · simp [h1]
      · simp [h1, ih]

theorem dGet_dErase_other (k k' : String) (d : DataMap) (h : k' ≠ k) :
    dGet k (dErase k' d) = dGet k d := by
  induction d with
  | nil => simp [dErase]
  | cons hd rest ih =>
    obtain ⟨k0, v0⟩ := hd
    by_cases h0 : k0 = k'
    · subst h0
      simp [dErase, dGet, fun hh : k0 = k => h hh]
    · simp only [dErase, if_neg h0, dGet]
      by_cases h1 : k0 = k
      · simp [h1]
      · simp [h1, ih]

/-- All handlers of `hs` leave the value of key `K` in the node cache
unchanged. -/
def handlersPreserve (K : String) (hs : List Handler) : Prop :=
  ∀ h ∈ hs, ∀ p s c, dGet K ((h p s c).2) = dGet K c

theorem dispatchEvent_preserve (K : String) :
    ∀ (hs : List Handler), handlersPreserve K hs →
      ∀ p s c, dGet K ((dispatchEvent hs p s c).2) = dGet K c := by
  intro hs
  induction hs with
  | nil => intro _ p s c; rfl
  | cons h rest ih =>
    intro hp p s c
    have hh : ∀ p s c, dGet K ((h p s c).2) = dGet K c :=
      hp h (List.mem_cons_self h rest)
    have hrest : handlersPreserve K rest :=
      fun g hg => hp g (List.mem_cons_of_mem h hg)
    rw [dispatchEvent]
    cases hr : (h p s c).1 with
    | some t =>
      obtain ⟨ok, dd⟩ := t
      by_cases hok : ok
      · subst hok
        dsimp only
        rw [if_pos rfl, ih hrest, hh]
      · have hf : ok = false := by
          cases ok
          · rfl
          · exact absurd rfl hok
        subst hf
        dsimp only
        rw [if_neg (by simp), hh]
    | none =>
      dsimp only
      rw [ih hrest, hh]


theorem curCache_some (cfg cls nid : String) (sto : Option DataMap)
    (c : DataMap) : curCache ⟨cfg, cls, nid, sto, some c⟩ = c := rfl

theorem runAfterG_cache (ahs : List Handler) (saved : DataMap) (n : NodeSt)
    (rq : ReqSt) (K : String) (hk : handlersPreserve K ahs) (c fb : DataMap)
    (hc : n.cache = some c) :
    dGet K (((runAfterG ahs saved n rq).1.cache).getD fb) = dGet K c := by
  unfold runAfterG
  by_cases h : gkey n ∈ rq.aguard
  · rw [if_pos h]
    dsimp only
    rw [hc]
    rfl
  · rw [if_neg h]
    dsimp only
    rw [Option.getD_some, dispatchEvent_preserve K ahs hk]
    have hcur : curCache n = c := by
      unfold curCache
      rw [hc]
    rw [hcur]

set_option maxHeartbeats 2000000 in
theorem runOnAccept_stamps (hs ahs : List Handler) (saved input : DataMap)
    (cfg cls nid : String) (sto : Option DataMap) (c0 fb : DataMap)
    (rq : ReqSt)
    (hid : handlersPreserve "_id" hs) (hcl : handlersPreserve "_class" hs)
    (haid : handlersPreserve "_id" ahs) (hacl : handlersPreserve "_class" ahs)
    (hci : dGet "_id" c0 = some (.vStr (normalize_own_uid cfg cls nid)))
    (hcc : dGet "_class" c0 = some (.vStr cls)) :
    dGet "_id" (((runOnAccept hs ahs saved input
        ⟨cfg, cls, nid, sto, some c0⟩ rq).2.1.cache).getD fb) =
      some (.vStr (normalize_own_uid cfg cls nid)) ∧
    dGet "_class" (((runOnAccept hs ahs saved input
        ⟨cfg, cls, nid, sto, some c0⟩ rq).2.1.cache).getD fb) =
      some (.vStr cls) := by
  have hidc : ("_id" : String) ≠ "_class" := by decide
  have hski : (skipKey : String) ≠ "_id" := by decide
  have hskc : (skipKey : String) ≠ "_class" := by decide
  unfold runOnAccept
  rw [curCache_some]
  by_cases hm : (dGet skipKey c0).isSome
  · rw [if_pos hm]
    unfold saveNoSkip
    cases sto with
    | none =>
      dsimp only
      rw [Option.getD_some, dGet_dErase_other _ _ _ hski,
        dGet_dErase_other _ _ _ hskc]
      exact ⟨hci, hcc⟩
    | some stored =>
      dsimp only
      rw [curCache_some]
      -- the re-stamped cache s2
      have h_s1_id : dGet "_id"
          (dSet "_class" (.vStr cls) (dErase skipKey c0)) =
          some (.vStr (normalize_own_uid cfg cls nid)) := by
        rw [dGet_dSet_other _ _ _ _ (by decide), dGet_dErase_other _ _ _ hski]
        exact hci
      have h_raw : rawId (dSet "_class" (.vStr cls) (dErase skipKey c0)) nid =
          normalize_own_uid cfg cls nid := by
        unfold rawId
        rw [h_s1_id]
        have ht : pyTruthy (.vStr (normalize_own_uid cfg cls nid)) = true := by
          unfold pyTruthy
          exact decide_eq_true (normalize_own_uid_ne_empty cfg cls nid)
        dsimp only
        rw [ht]
        rfl
      have h_s2_id : dGet "_id"
          (dSet "_id" (.vStr (normalize_own_uid cfg cls
              (rawId (dSet "_class" (.vStr cls) (dErase skipKey c0)) nid)))
            (dSet "_class" (.vStr cls) (dErase skipKey c0))) =
          some (.vStr (normalize_own_uid cfg cls nid)) := by
        rw [dGet_dSet_self, h_raw, normalize_own_uid_idem]
      have h_s2_cl : dGet "_class"
          (dSet "_id" (.vStr (normalize_own_uid cfg cls
              (rawId (dSet "_class" (.vStr cls) (dErase skipKey c0)) nid)))
            (dSet "_class" (.vStr cls) (dErase skipKey c0))) =
          some (.vStr cls) := by
        rw [dGet_dSet_other _ _ _ _ hidc, dGet_dSet_self]
      unfold runOnAcceptG
      by_cases hg : gkey (⟨cfg, cls, nid, some stored,
          some (dErase skipKey c0)⟩ : NodeSt) ∈ rq.guard
      · rw [if_pos (by exact hg)]
        dsimp only
        constructor
        · rw [runAfterG_cache ahs stored _ rq "_id" haid _ fb (by exact rfl)]
          exact h_s2_id
        · rw [runAfterG_cache ahs stored _ rq "_class" hacl _ fb (by exact rfl)]
          exact h_s2_cl
      · rw [if_neg (by exact hg)]
        dsimp only
        rw [curCache_some]
        split
        · dsimp only
          rw [Option.getD_some, dispatchEvent_preserve "_id" hs hid,
            dispatchEvent_preserve "_class" hs hcl]
          exact ⟨h_s2_id, h_s2_cl⟩
        · dsimp only
          constructor
          · rw [runAfterG_cache ahs stored _ _ "_id" haid _ fb (by exact rfl)]
            rw [dispatchEvent_preserve "_id" hs hid]
            exact h_s2_id
          · rw [runAfterG_cache ahs stored _ _ "_class" hacl _ fb (by exact rfl)]
            rw [dispatchEvent_preserve "_class" hs hcl]
            exact h_s2_cl
  · rw [if_neg hm]
    unfold runOnAcceptG
    by_cases hg : gkey (⟨cfg, cls, nid, sto, some c0⟩ : NodeSt) ∈ rq.guard
    · rw [if_pos (by exact hg)]
      dsimp only
      exact ⟨hci, hcc⟩
    · rw [if_neg (by exact hg)]
      dsimp only
      rw [curCache_some, Option.getD_some, dispatchEvent_preserve "_id" hs hid,
        dispatchEvent_preserve "_class" hs hcl]
      exact ⟨hci, hcc⟩

/-- C9 amended: `set_data`, `update_data` (and `create` with a truthy
`initial_data`) never let the caller overwrite the identity fields:
whatever `_id`/`_class` the input carries, when the write completes the
persisted `_data` has `_class` equal to the node's class name and `_id`
equal to the normalized composite uid — provided no configured
before-persist AND no after-persist handler mutates these keys (the
after-persist proviso is forced by the skip-marker path, which
re-persists the cache after the after-hook). -/
theorem claim_C9_amended (hs ahs : List Handler) (op : WOp) (n : NodeSt)
    (rq : ReqSt)
    (hid : handlersPreserve "_id" hs) (hcl : handlersPreserve "_class" hs)
    (haid : handlersPreserve "_id" ahs) (hacl : handlersPreserve "_class" ahs)
    (hop : match op with
      | WOp.setD _ _ => True
      | WOp.updD _ => True
      | WOp.createD initial => initial ≠ []
      | _ => False) :
    (execW hs ahs op n rq).1 = .ok () →
    ∀ d, (execW hs ahs op n rq).2.1.storage = some d →
      dGet "_class" d = some (.vStr n.cls) ∧
      dGet "_id" d = some (.vStr (normalize_own_uid n.cfg n.cls n.nid)) := by
  obtain ⟨cfg, cls, nid, sto, ca⟩ := n
  cases op with
  | setter v => exact hop.elim
  | saveOp => exact hop.elim
  | setD k v =>
    simp only [execW]
    unfold setData
    cases sto with
    | none =>
      intro _ d hd
      exact absurd hd (by simp)
    | some stored =>
      dsimp only
      split
      · intro hok
        exact Except.noConfusion hok
      · intro _ d hd
        rw [(runAfterG_spec _ _ _ _).2.2.2.1] at hd
        have hd2 := Option.some.inj hd
        rw [← hd2]
        constructor
        · exact (runOnAccept_stamps hs ahs stored [(k, v)] cfg cls nid _ _ _
            rq hid hcl haid hacl
            (by rw [dGet_dSet_self])
            (by rw [dGet_dSet_other _ _ _ _ (by decide), dGet_dSet_self])).2
        · exact (runOnAccept_stamps hs ahs stored [(k, v)] cfg cls nid _ _ _
            rq hid hcl haid hacl
            (by rw [dGet_dSet_self])
            (by rw [dGet_dSet_other _ _ _ _ (by decide), dGet_dSet_self])).1
  | updD m =>
    simp only [execW]
    unfold updateData
    cases sto with
    | none =>
      intro _ d hd
      exact absurd hd (by simp)
    | some stored =>
      dsimp only
      split
      · intro hok
        exact Except.noConfusion hok
      · intro _ d hd
        rw [(runAfterG_spec _ _ _ _).2.2.2.1] at hd
        have hd2 := Option.some.inj hd
        rw [← hd2]
        constructor
        · exact (runOnAccept_stamps hs ahs stored m cfg cls nid _ _ _
            rq hid hcl haid hacl
            (by rw [dGet_dSet_self])
            (by rw [dGet_dSet_other _ _ _ _ (by decide), dGet_dSet_self])).2
        · exact (runOnAccept_stamps hs ahs stored m cfg cls nid _ _ _
            rq hid hcl haid hacl
            (by rw [dGet_dSet_self])
            (by rw [dGet_dSet_other _ _ _ _ (by decide), dGet_dSet_self])).1
  | createD initial =>
    simp only [execW]
    unfold createOp
    rw [if_neg (by exact hop)]
    cases sto with
    | none =>
      intro _ d hd
      exact absurd hd (by simp)
    | some stored =>
      dsimp only
      split
      · intro hok
        exact Except.noConfusion hok
      · intro _ d hd
        dsimp only at hd
        rw [(runAfterG_spec _ _ _ _).2.2.2.1] at hd
        have hd2 := Option.some.inj hd
        rw [← hd2]
        constructor
        · exact (runOnAccept_stamps hs ahs stored initial cfg cls nid _ _ _
            rq hid hcl haid hacl
            (by rw [dGet_dSet_other _ _ _ _ (by decide), dGet_dSet_self])
            (by rw [dGet_dSet_self])).2
        · exact (runOnAccept_stamps hs ahs stored initial cfg cls nid _ _ _
            rq hid hcl haid hacl
            (by rw [dGet_dSet_other _ _ _ _ (by decide), dGet_dSet_self])
            (by rw [dGet_dSet_self])).1

theorem claim_C9_amended_witness :
    dGet "_class"
        (((execW [] [] (WOp.setD "y" (Val.vNat 2))
            ⟨"k", "C", "i", some [("a", Val.vNat 1)], none⟩
            ⟨[], [], 0, 0⟩).2.1.storage).getD []) = some (Val.vStr "C") ∧
    dGet "_id"
        (((execW [] [] (WOp.setD "y" (Val.vNat 2))
            ⟨"k", "C", "i", some [("a", Val.vNat 1)], none⟩
            ⟨[], [], 0, 0⟩).2.1.storage).getD []) =
      some (Val.vStr (normalize_own_uid "k" "C" "i")) := by
  have hpre : ∀ K, handlersPreserve K ([] : List Handler) := by
    intro K h hh
    exact absurd hh (List.not_mem_nil h)
  exact claim_C9_amended [] [] (WOp.setD "y" (Val.vNat 2))
    ⟨"k", "C", "i", some [("a", Val.vNat 1)], none⟩ ⟨[], [], 0, 0⟩
    (hpre _) (hpre _) (hpre _) (hpre _) trivial rfl _ rfl

end NodaLogic
